import Mathlib

/-!
Verification of the symlink-comparison engine (scripts/symlink-comparison.py).

Python strings are modelled as lists of characters (`Str`), Python dicts as
association lists looked up from the front (Python dicts have unique keys, so
the two agree), and a raised exception (`AttributeError` on a non-string,
truthy symlink target) as `Except.error ()`.  Python `set` iteration order is
implementation defined; it is modelled deterministically as first-seen
insertion order (`dedupFirst`, `insertOnce`), and every statement proved about
concrete inputs below was chosen so that its outcome does not depend on that
order.  The numeric counters of the `stats` dictionary and the progress
printing are presentation only and are not modelled; the classification
buckets and the `store_path_mappings` dictionary, which the claims are about,
are modelled in full.
-/

namespace SymComp

/-- Python strings are modelled as lists of characters. -/
abbrev Str := List Char

/-- Turn a Lean string literal into the model representation. -/
def strL (s : String) : Str := s.data

/-- Python `path.lstrip("/")`: remove every leading `'/'`. -/
def pyLstrip (s : Str) : Str := s.dropWhile (fun c => c == '/')

/-- The character class `[a-z0-9]` of the store-hash regexes. -/
def isLowerAlnum (c : Char) : Bool :=
  ('a' ≤ c && c ≤ 'z') || ('0' ≤ c && c ≤ '9')

/-- Store root `nix/.ro-store/` (the optional group of the regex, `[wo]` = `o`). -/
def rootRO : Str := ['n', 'i', 'x', '/', '.', 'r', 'o', '-', 's', 't', 'o', 'r', 'e', '/']

/-- Store root `nix/.rw-store/` (the optional group of the regex, `[wo]` = `w`). -/
def rootRW : Str := ['n', 'i', 'x', '/', '.', 'r', 'w', '-', 's', 't', 'o', 'r', 'e', '/']

/-- Store root `nix/store/` (regex with the optional group absent). -/
def rootPlain : Str := ['n', 'i', 'x', '/', 's', 't', 'o', 'r', 'e', '/']

/-- The store roots recognised by `nix/(?:\.r[wo]-)?store/`. -/
def roots : List Str := [rootRO, rootRW, rootPlain]

/-- Match the store-root part `nix/(?:\.r[wo]-)?store/` at the head of `s`,
returning the matched root and the remaining input.  At any position at most
one of the three alternatives can match, so the order of the tests is
immaterial. -/
def stripRoot (s : Str) : Option (Str × Str) :=
  if rootRO.isPrefixOf s then some (rootRO, s.drop rootRO.length)
  else if rootRW.isPrefixOf s then some (rootRW, s.drop rootRW.length)
  else if rootPlain.isPrefixOf s then some (rootPlain, s.drop rootPlain.length)
  else none

/-- The literal replacement token `HASH`. -/
def hashTok : Str := ['H', 'A', 'S', 'H']

/-- One attempt of `(nix/(?:\.r[wo]-)?store/)[a-z0-9]{32}-(.+)` at the current
position.  On success, returns the replacement text `\1HASH-\2` together with
the rest of the input after the match.  `.` does not match a newline, so the
greedy `(.+)` runs to the next newline or the end of the input and must be
non-empty. -/
def matchAt (s : Str) : Option (Str × Str) :=
  match stripRoot s with
  | none => none
  | some (root, r1) =>
    let h := r1.take 32
    if (h.length == 32) && h.all isLowerAlnum then
      match r1.drop 32 with
      | '-' :: r3 =>
        match r3.takeWhile (fun c => c != '\n') with
        | [] => none
        | g => some (root ++ hashTok ++ '-' :: g, r3.dropWhile (fun c => c != '\n'))
      | _ => none
    else none

/-- The scanning loop of `re.sub`: try a match at every position from the
left; on a match emit the replacement and continue after the matched text,
otherwise keep one character and move on.  Fuel-driven; any fuel at least the
length of the input gives the same answer. -/
def subScanF : Nat → Str → Str
  | 0, s => s
  | _ + 1, [] => []
  | n + 1, c :: cs =>
    match matchAt (c :: cs) with
    | some (rep, rem) => rep ++ subScanF n rem
    | none => c :: subScanF n cs

/-- `re.sub(pattern, r"\1HASH-\2", s)` for the store-hash pattern. -/
def pySub (s : Str) : Str := subScanF s.length s

/-- `normalize_path` (symlink-comparison.py, lines 27-38): strip leading
slashes, then replace a store hash segment by `HASH`. -/
def normalize_path (p : Str) : Str := pySub (pyLstrip p)

/-- `fix_path` (line 41-42). -/
def fix_path (p : Str) : Str := pyLstrip p

/-- `posixpath.dirname`: everything up to the last `'/'`, with trailing
slashes stripped unless the head is empty or all slashes. -/
def dirname (p : Str) : Str :=
  let head := (p.reverse.dropWhile (fun c => c != '/')).reverse
  if head.isEmpty || head.all (fun c => c == '/') then head
  else (head.reverse.dropWhile (fun c => c == '/')).reverse

/-- `posixpath.join` for two arguments. -/
def pathJoin (a b : Str) : Str :=
  if b.head? = some '/' then b
  else if a.isEmpty || a.getLast? = some '/' then a ++ b
  else a ++ '/' :: b

/-- The literal component `..`. -/
def dotdot : Str := ['.', '.']

/-- One step of `posixpath.normpath`'s component loop. -/
def npStep (initSlashes : Nat) (acc : List Str) (comp : Str) : List Str :=
  if comp.isEmpty || comp == ['.'] then acc
  else if comp != dotdot || ((initSlashes == 0) && acc.isEmpty) ||
      (match acc.getLast? with
       | some l => l == dotdot
       | none => false) then
    acc ++ [comp]
  else if acc.isEmpty then acc
  else acc.dropLast

/-- `posixpath.normpath`: purely lexical collapse of `.`, `..` and repeated
separators, preserving one or two (but not three or more) leading slashes. -/
def normpath (p : Str) : Str :=
  if p.isEmpty then ['.']
  else
    let initSlashes : Nat :=
      if p.head? = some '/' then
        if (['/', '/']).isPrefixOf p && !(['/', '/', '/']).isPrefixOf p then 2 else 1
      else 0
    let comps := (p.splitOn '/').foldl (npStep initSlashes) []
    let res := List.replicate initSlashes '/' ++ List.intercalate ['/'] comps
    if res.isEmpty then ['.'] else res

/-- A symlink record's `target` field as far as the code inspects it: absent
or JSON null (`.get` returns `None` for both), a string, or some other JSON
value of which the code only ever observes the truthiness before calling a
string method on it. -/
inductive PyTarget where
  | tnone : PyTarget
  | tstr : Str → PyTarget
  | tother : Bool → PyTarget
deriving DecidableEq

/-- Python truthiness test `not target`. -/
def PyTarget.falsy : PyTarget → Bool
  | .tnone => true
  | .tstr s => s.isEmpty
  | .tother t => !t

/-- A snapshot symlink record; the opaque metadata is never read. -/
structure SymRec where
  target : PyTarget
deriving DecidableEq

/-- A snapshot file record; only the hash field (`None` when the file was
unreadable at capture time) is ever read, and it is only tested for `None`
and compared for equality, so a string model suffices. -/
structure FileRec where
  hash : Option Str
deriving DecidableEq

/-- The `symlinks` dictionary of a snapshot. -/
abbrev Symtab := List (Str × SymRec)

/-- The `files` dictionary of a snapshot. -/
abbrev Filetab := List (Str × FileRec)

/-- Dictionary lookup, scanning from the front. -/
def alookup {α : Type} : List (Str × α) → Str → Option α
  | [], _ => none
  | (k, v) :: rest, key => if k = key then some v else alookup rest key

/-- The terminal status of a chain resolution. -/
inductive Status where
  | file : Status
  | broken : Status
  | missing : Status
  | cycle : Status
  | max_depth : Status
deriving DecidableEq

/-- The tuple `(final_path, is_broken, file_hash, status)` returned by
`resolve_symlink_chain`. -/
structure RRes where
  final_path : Str
  is_broken : Bool
  file_hash : Option Str
  status : Status
deriving DecidableEq

/-- Compute the next `current_path` from a (non-empty string) symlink target
(lines 105-114): relative targets are joined to the directory of the current
path and lexically normalised, absolute ones have their leading slash
stripped. -/
def nextPath (cur target : Str) : Str :=
  if target.head? = some '/' then pyLstrip target
  else normpath (pathJoin (dirname cur) target)

/-- The `while depth < max_depth` loop of `resolve_symlink_chain`; the fuel is
`max_depth - depth`.  `Except.error ()` models the `AttributeError` raised by
`target.startswith` when the target is a truthy non-string. -/
def resolveGo (symlinks : Symtab) (files : Filetab) :
    Str → List Str → Nat → Except Unit RRes
  | cur, _, 0 => .ok ⟨cur, true, none, .max_depth⟩
  | cur, visited, n + 1 =>
    if cur ∈ visited then .ok ⟨cur, true, none, .cycle⟩
    else
      match alookup symlinks cur with
      | none =>
        match alookup files (fix_path cur) with
        | some fr =>
          match fr.hash with
          | some h => .ok ⟨cur, false, some h, .file⟩
          | none => .ok ⟨cur, true, none, .missing⟩
        | none => .ok ⟨cur, true, none, .missing⟩
      | some sr =>
        match sr.target with
        | .tnone => .ok ⟨cur, true, none, .broken⟩
        | .tother truthy =>
          if truthy then .error () else .ok ⟨cur, true, none, .broken⟩
        | .tstr s =>
          if s.isEmpty then .ok ⟨cur, true, none, .broken⟩
          else resolveGo symlinks files (nextPath cur s) (cur :: visited) n

/-- The resolution cache, threaded explicitly instead of mutated in place. -/
abbrev Cache := List (Str × RRes)

/-- `resolve_symlink_chain` (lines 57-119).  Mutation of `cache` is modelled
by returning the updated cache next to the result; a raised exception leaves
the cache unchanged, exactly as in the source, where the write never runs. -/
def resolve_symlink_chain (path : Str) (symlinks : Symtab) (files : Filetab)
    (cache : Cache) (max_depth : Nat := 20) : Except Unit (RRes × Cache) :=
  match alookup cache path with
  | some r => .ok (r, cache)
  | none =>
    match resolveGo symlinks files path [] max_depth with
    | .ok r => .ok (r, (path, r) :: cache)
    | .error e => .error e

/-- One valid symlink hop, as the claims speak of it: the current path is
recorded as a symlink whose target is a non-empty string; the hop lands on
the path the resolver would move to. -/
def symStep (symlinks : Symtab) (cur : Str) : Option Str :=
  match alookup symlinks cur with
  | some sr =>
    match sr.target with
    | .tstr s => if s.isEmpty then none else some (nextPath cur s)
    | _ => none
  | none => none

/-- The path reached after `k` valid hops from `p`, when all of them exist. -/
def hopN (symlinks : Symtab) (p : Str) : Nat → Option Str
  | 0 => some p
  | k + 1 => (hopN symlinks p k).bind (symStep symlinks)

/-- Add one element to a list unless already present (the model of adding to
a Python `set`, in first-seen order). -/
def insertOnce (l : List Str) (x : Str) : List Str :=
  if x ∈ l then l else l ++ [x]

/-- Deterministic stand-in for Python's `set(list1 + list2)`: keep the first
occurrence of each element, in order of first appearance. -/
def dedupFirst (l : List Str) : List Str :=
  l.foldl insertOnce []

/-- The normalized-path index: `map[NormalizedPath -> list of original paths]`. -/
abbrev PathIndex := List (Str × List Str)

/-- Append `p` to the bucket of `key`, creating the bucket when needed (the
`defaultdict(list)` behaviour of the index builder). -/
def indexInsert (idx : PathIndex) (key p : Str) : PathIndex :=
  match idx with
  | [] => [(key, [p])]
  | (k, ps) :: rest =>
    if k = key then (k, ps ++ [p]) :: rest
    else (k, ps) :: indexInsert rest key p

/-- `build_normalized_path_index` (lines 45-54). -/
def build_normalized_path_index (paths : List Str) : PathIndex :=
  paths.foldl (fun idx p => indexInsert idx (normalize_path p) p) []

/-- `path_index2.get(norm_path, [])`. -/
def indexGet (idx : PathIndex) (key : Str) : List Str :=
  (alookup idx key).getD []

/-- One attempt of `nix/(?:\.r[wo]-)?store/[a-z0-9]{32}-([^/]+)` at the
current position; on success returns the whole matched text together with the
bracketed group (the package name).  The store-mapping extraction (lines
249-254) uses the whole text, the package analysis (lines 324-325) the
group. -/
def storeMatchAt (s : Str) : Option (Str × Str) :=
  match stripRoot s with
  | none => none
  | some (root, r1) =>
    let h := r1.take 32
    if (h.length == 32) && h.all isLowerAlnum then
      match r1.drop 32 with
      | '-' :: r3 =>
        match r3.takeWhile (fun c => c != '/') with
        | [] => none
        | g => some (root ++ h ++ '-' :: g, g)
      | _ => none
    else none

/-- `re.search` scanning loop for the store-path pattern: leftmost match. -/
def storeSearchF : Nat → Str → Option (Str × Str)
  | 0, _ => none
  | _ + 1, [] => none
  | n + 1, c :: cs =>
    match storeMatchAt (c :: cs) with
    | some m => some m
    | none => storeSearchF n cs

/-- The whole text matched by the store-path regex, leftmost in `s`. -/
def storeSearch (s : Str) : Option Str :=
  (storeSearchF s.length s).map Prod.fst

/-- The package-name group of the store-path regex, leftmost in `s`. -/
def pkgSearch (s : Str) : Option Str :=
  (storeSearchF s.length s).map Prod.snd

/-- The fields of one matched pair, after the in-place update with the two
resolution results (lines 239-244 and 277-289).  Every bucket holds the same
dictionary object in the source, so every bucket sees the updated fields. -/
structure PathMatch where
  state1_path : Str
  state2_path : Str
  state1_target : PyTarget
  state2_target : PyTarget
  state1_final_path : Str
  state2_final_path : Str
  state1_broken : Bool
  state2_broken : Bool
  state1_final_hash : Option Str
  state2_final_hash : Option Str
  state1_status : Status
  state2_status : Status
deriving DecidableEq

/-- The classification buckets and the store-path mapping dictionary of
`find_equivalent_symlinks`' result.  The numeric counters of `stats` always
equal the lengths of the corresponding buckets and are not duplicated
here. -/
structure FindResults where
  matching_paths : List PathMatch
  different_targets : List PathMatch
  identical_final_content : List PathMatch
  different_final_content : List PathMatch
  broken_in_both : List PathMatch
  broken_only_in_state1 : List PathMatch
  broken_only_in_state2 : List PathMatch
  store_path_mappings : List (Str × Str)
deriving DecidableEq

/-- A captured snapshot: the `symlinks` and `files` dictionaries. -/
structure Snapshot where
  symlinks : Symtab
  files : Filetab

/-- `normalize_path(target or "")` (line 265).  A truthy non-string target
reaches `path.lstrip` inside `normalize_path` and raises, every falsy value
is replaced by the empty string first. -/
def normTargetE : PyTarget → Except Unit Str
  | .tnone => .ok (normalize_path [])
  | .tstr s => .ok (normalize_path s)
  | .tother truthy => if truthy then .error () else .ok (normalize_path [])

/-- The mutable state threaded through the matcher's loop: the accumulated
result and both per-snapshot resolution caches. -/
structure MState where
  res : FindResults
  cache1 : Cache
  cache2 : Cache

/-- The bucket updates for one matched pair (lines 239-246, 264-267 and
291-307): record the match and the (already computed) store-path mappings,
tag a pair whose normalized raw targets differ, then classify the pair by
brokenness and final hash.  The `is_broken` and `file_hash` fields of `pm`
are exactly those of the two resolution results. -/
def recordMatch (res : FindResults) (pm : PathMatch) (n1 n2 : Str)
    (mappings : List (Str × Str)) : FindResults :=
  let res1 := { res with
    matching_paths := res.matching_paths ++ [pm],
    store_path_mappings := mappings }
  let res2 := if n1 ≠ n2 then
      { res1 with different_targets := res1.different_targets ++ [pm] }
    else res1
  if pm.state1_broken && pm.state2_broken then
    { res2 with broken_in_both := res2.broken_in_both ++ [pm] }
  else if pm.state1_broken then
    { res2 with broken_only_in_state1 := res2.broken_only_in_state1 ++ [pm] }
  else if pm.state2_broken then
    { res2 with broken_only_in_state2 := res2.broken_only_in_state2 ++ [pm] }
  else if pm.state1_final_hash = pm.state2_final_hash then
    { res2 with identical_final_content := res2.identical_final_content ++ [pm] }
  else
    { res2 with different_final_content := res2.different_final_content ++ [pm] }

/-- The body of the matcher's loop for one snapshot-1 symlink (lines
223-307).  `pr` is the dictionary item being iterated, so `pr.2` is
`symlinks1[path1]`.  The candidate filter `[p for p in paths2 if p in
symlinks2]` is fused with the lookup of `symlinks2[path2]` it guarantees to
succeed. -/
def processOne (s1 s2 : Snapshot) (idx2 : PathIndex) (st : MState)
    (pr : Str × SymRec) : Except Unit MState :=
  let path1 := pr.1
  let cands := (indexGet idx2 (normalize_path path1)).filterMap
    (fun p => (alookup s2.symlinks p).map (fun sr => (p, sr)))
  match cands with
  | [] => .ok st
  | (path2, sr2) :: _ =>
    let target1 := pr.2.target
    let target2 := sr2.target
    let mappings :=
      match storeSearch path1, storeSearch path2 with
      | some sp1, some sp2 =>
        match alookup st.res.store_path_mappings sp1 with
        | none => st.res.store_path_mappings ++ [(sp1, sp2)]
        | some _ => st.res.store_path_mappings
      | _, _ => st.res.store_path_mappings
    match normTargetE target1, normTargetE target2 with
    | .ok n1, .ok n2 =>
      match resolve_symlink_chain path1 s1.symlinks s1.files st.cache1 with
      | .ok (r1, c1) =>
        match resolve_symlink_chain path2 s2.symlinks s2.files st.cache2 with
        | .ok (r2, c2) =>
          let pm : PathMatch := ⟨path1, path2, target1, target2,
            r1.final_path, r2.final_path, r1.is_broken, r2.is_broken,
            r1.file_hash, r2.file_hash, r1.status, r2.status⟩
          .ok ⟨recordMatch st.res pm n1 n2 mappings, c1, c2⟩
        | .error e => .error e
      | .error e => .error e
    | .error e, _ => .error e
    | _, .error e => .error e

/-- The empty matcher state. -/
def initMState : MState := ⟨⟨[], [], [], [], [], [], [], []⟩, [], []⟩

/-- The path set of a snapshot used for the index:
`set(list(symlinks2.keys()) + list(files2.keys()))` (lines 177-178). -/
def allPaths2 (s : Snapshot) : List Str :=
  dedupFirst (s.symlinks.map Prod.fst ++ s.files.map Prod.fst)

/-- `find_equivalent_symlinks` (lines 167-312).  Batching (`batch_size`) only
chunks the same left-to-right iteration over `symlinks1` for progress output
and is invisible to the result, so the loop is modelled as one fold. -/
def find_equivalent_symlinks (state1 state2 : Snapshot) :
    Except Unit FindResults :=
  let idx2 := build_normalized_path_index (allPaths2 state2)
  (state1.symlinks.foldlM (processOne state1 state2 idx2) initMState).map
    (fun st => st.res)

/-- `package_mappings[package1].add(package2)`, creating the entry at the end
of the dictionary when the key is new (lines 331-334). -/
def addObs (pm : List (Str × List Str)) (k v : Str) : List (Str × List Str) :=
  match pm with
  | [] => [(k, [v])]
  | (k0, vs) :: rest =>
    if k0 = k then (k0, insertOnce vs v) :: rest
    else (k0, vs) :: addObs rest k v

/-- One loop iteration of the package-mapping extraction (lines 322-334): a
mapping entry contributes an observation only when both sides contain a
recognisable store segment. -/
def pmStep (pm : List (Str × List Str)) (pr : Str × Str) : List (Str × List Str) :=
  match pkgSearch pr.1, pkgSearch pr.2 with
  | some p1, some p2 => addObs pm p1 p2
  | _, _ => pm

/-- The `package_mappings` dictionary built from the store-path mappings
(lines 321-334). -/
def package_mappings_of (mappings : List (Str × Str)) : List (Str × List Str) :=
  mappings.foldl pmStep []

/-- The consistent-bucket projection of one `package_mappings` entry
(lines 340-342): a single-element observed set is reported as that single
mapping (`next(iter(s))`). -/
def consFn (kv : Str × List Str) : Option (Str × Str) :=
  match kv.2 with
  | [t] => some (kv.1, t)
  | _ => none

/-- The inconsistent-bucket test of one `package_mappings` entry (lines
340-344). -/
def inconsFn (kv : Str × List Str) : Bool := kv.2.length != 1

/-- The result record of `analyze_store_paths`. -/
structure StoreAnalysis where
  consistent_package_mappings : List (Str × Str)
  inconsistent_package_mappings : List (Str × List Str)
  total_store_paths : Nat
  unique_packages_state1 : Nat
  consistent_mappings_count : Nat
  inconsistent_mappings_count : Nat
deriving DecidableEq

/-- `analyze_store_paths` (lines 315-353), as a function of the
`store_path_mappings` dictionary it reads from the matcher's results.  A
package maps consistently when its observed-target set has exactly one
element (`next(iter(s))` is then that element), otherwise it is reported with
the full list of alternatives. -/
def analyze_store_paths (mappings : List (Str × Str)) : StoreAnalysis :=
  let pm := package_mappings_of mappings
  let cons := pm.filterMap consFn
  let incons := pm.filter inconsFn
  ⟨cons, incons, mappings.length, pm.length, cons.length, incons.length⟩

/-- Soundness of a resolution cache with respect to its snapshot: every
entry is the result the resolver computes from scratch with the default
depth bound. -/
def CacheOK (sl : Symtab) (fl : Filetab) (c : Cache) : Prop :=
  ∀ p r, alookup c p = some r → resolveGo sl fl p [] 20 = .ok r

/-- Relation between the accumulated store-path mappings and the accumulated
matched pairs: every mapping entry comes from some matched pair, and every
matched pair whose two paths contain recognisable store segments has its
snapshot-1 store path present among the mappings. -/
def MappingsInv (res : FindResults) : Prop :=
  (∀ sp t, alookup res.store_path_mappings sp = some t →
    ∃ pm, pm ∈ res.matching_paths ∧ storeSearch pm.state1_path = some sp ∧
      storeSearch pm.state2_path = some t) ∧
  (∀ pm, pm ∈ res.matching_paths → ∀ sp, storeSearch pm.state1_path = some sp →
    (storeSearch pm.state2_path).isSome = true →
    ∃ t, alookup res.store_path_mappings sp = some t)

/-- A target value the resolver can process without raising: anything except
a truthy non-string. -/
def targetSafe : PyTarget → Bool
  | .tother true => false
  | _ => true

/-- The number of positions of `s` at which a store root occurs.  A path
contains "at most one store-root/hash segment" exactly when this count is at
most one. -/
def rootCount : Str → Nat
  | [] => 0
  | c :: cs => (if (stripRoot (c :: cs)).isSome then 1 else 0) + rootCount cs

/-- Whether the hash-segment pattern of `normalize_path` matches anywhere in
`s`. -/
def hasSeg : Str → Bool
  | [] => false
  | c :: cs => (matchAt (c :: cs)).isSome || hasSeg cs

/-- The observed target package names of one source package name, read off
the raw store-path mappings: one observation per mapping entry whose two
sides both contain a recognisable store segment. -/
def obsTargets (mappings : List (Str × Str)) (pkg : Str) : List Str :=
  mappings.filterMap (fun pr =>
    match pkgSearch pr.1, pkgSearch pr.2 with
    | some p1, some p2 => if p1 = pkg then some p2 else none
    | _, _ => none)

/-- First-seen deduplication of a list of observations (the model of the
Python `set` the analyzer accumulates per package). -/
def dedupObs (l : List Str) : List Str := l.foldl insertOnce []

/-- A 32-character hash made of `a` (concrete test data). -/
def ha : Str := List.replicate 32 'a'

/-- A 32-character hash made of `b` (concrete test data). -/
def hb : Str := List.replicate 32 'b'

/-- A 32-character hash made of `c` (concrete test data). -/
def hc : Str := List.replicate 32 'c'

/-- A path with two store segments: only the first is rewritten by one
application of `normalize_path`, the second by a second application. -/
def pTwoSeg : Str := strL "nix/store/" ++ ha ++ strL "-x/nix/store/" ++ hb ++ strL "-y"

/-- A store path whose name part begins with a newline: `(.+)` cannot match
there, so `normalize_path` leaves the whole path untouched. -/
def pNewline : Str := strL "nix/store/" ++ ha ++ ('-' :: '\n' :: strL "n/r")

/-- Identical-snapshot test data for the matcher: two symlinks that share a
normalized path but resolve to files with different hashes. -/
def snapColl : Snapshot :=
  ⟨[(strL "nix/store/" ++ ha ++ strL "-p/l", ⟨.tstr (strL "/f1")⟩),
    (strL "nix/store/" ++ hb ++ strL "-p/l", ⟨.tstr (strL "/f2")⟩)],
   [(strL "f1", ⟨some (strL "h1")⟩), (strL "f2", ⟨some (strL "h2")⟩)]⟩

/-- Collision-free identical-snapshot test data for the matcher. -/
def snapPlain : Snapshot :=
  ⟨[(strL "nix/store/" ++ ha ++ strL "-p/l", ⟨.tstr (strL "/f1")⟩),
    (strL "bad", ⟨.tnone⟩)],
   [(strL "f1", ⟨some (strL "h1")⟩)]⟩

/-- Snapshot 1 of the store-mapping test: two symlinks under the same store
path. -/
def snapMapA : Snapshot :=
  ⟨[(strL "nix/store/" ++ ha ++ strL "-p/x", ⟨.tstr (strL "/f")⟩),
    (strL "nix/store/" ++ ha ++ strL "-p/y", ⟨.tstr (strL "/f")⟩)],
   [(strL "f", ⟨some (strL "h")⟩)]⟩

/-- Snapshot 2 of the store-mapping test: the two matching symlinks live
under two different store paths. -/
def snapMapB : Snapshot :=
  ⟨[(strL "nix/store/" ++ hb ++ strL "-p/x", ⟨.tstr (strL "/f")⟩),
    (strL "nix/store/" ++ hc ++ strL "-p/y", ⟨.tstr (strL "/f")⟩)],
   [(strL "f", ⟨some (strL "h")⟩)]⟩

/-- Store-path mappings realising the observations (A,X), (A,X), (A,Y) of
the mapping-consistency example. -/
def mapsAXY : List (Str × Str) :=
  [(strL "nix/store/" ++ ha ++ strL "-A", strL "nix/store/" ++ ha ++ strL "-X"),
   (strL "nix/store/" ++ hb ++ strL "-A", strL "nix/store/" ++ hb ++ strL "-X"),
   (strL "nix/store/" ++ hc ++ strL "-A", strL "nix/store/" ++ hc ++ strL "-Y")]

/-- Store-path mappings realising the observations (A,X), (A,X) only. -/
def mapsAXX : List (Str × Str) := mapsAXY.take 2

/-- A two-hop symlink chain (concrete test data). -/
def slChain2 : Symtab :=
  [(strL "a", ⟨.tstr (strL "/b")⟩), (strL "b", ⟨.tstr (strL "/c")⟩)]

/-- A mutual two-cycle between `a` and `b` (concrete test data). -/
def slCycle : Symtab :=
  [(strL "a", ⟨.tstr (strL "/b")⟩), (strL "b", ⟨.tstr (strL "/a")⟩)]

/-- One symlink whose target is a truthy non-string (concrete test data). -/
def slBadTarget : Symtab := [(strL "a", ⟨.tother true⟩)]

/-- One symlink with an absent target (concrete test data). -/
def slNoneTarget : Symtab := [(strL "a", ⟨.tnone⟩)]

/-- One symlink pointing at a regular file (concrete test data). -/
def slToFile : Symtab := [(strL "a", ⟨.tstr (strL "/f")⟩)]

/-- A file table holding one file `f` with hash `h` (concrete test data). -/
def flOneFile : Filetab := [(strL "f", ⟨some (strL "h")⟩)]

/-! Infrastructure lemmas about lookup and the resolver. -/

theorem alookup_mem {α : Type} {l : List (Str × α)} {k : Str} {v : α}
    (h : alookup l k = some v) : (k, v) ∈ l := by
  induction l with
  | nil => simp [alookup] at h
  | cons hd tl ih =>
    obtain ⟨k0, v0⟩ := hd
    by_cases hk : k0 = k
    · subst hk
      simp [alookup] at h
      subst h
      exact List.mem_cons_self _ _
    · rw [alookup, if_neg hk] at h
      exact List.mem_cons_of_mem _ (ih h)

theorem alookup_cons_self {α : Type} {l : List (Str × α)} {k : Str} {v : α} :
    alookup ((k, v) :: l) k = some v := by
  rw [alookup, if_pos rfl]

theorem alookup_cons_ne {α : Type} {l : List (Str × α)} {k k' : Str} {v : α}
    (h : k ≠ k') : alookup ((k, v) :: l) k' = alookup l k' := by
  rw [alookup, if_neg h]

/-- Every iteration of the resolver loop yields a result (no exception) when
no symlink target is a truthy non-string. -/
theorem resolveGo_total (sl : Symtab) (fl : Filetab)
    (hsafe : ∀ pr ∈ sl, targetSafe pr.2.target = true) :
    ∀ (n : Nat) (cur : Str) (visited : List Str),
      ∃ r, resolveGo sl fl cur visited n = .ok r := by
  intro n
  induction n with
  | zero => exact fun cur visited => ⟨_, rfl⟩
  | succ n ih =>
    intro cur visited
    by_cases hv : cur ∈ visited
    · exact ⟨⟨cur, true, none, .cycle⟩, by simp [resolveGo, hv]⟩
    · cases hs : alookup sl cur with
      | none =>
        cases hf : alookup fl (fix_path cur) with
        | none => exact ⟨⟨cur, true, none, .missing⟩, by simp [resolveGo, hv, hs, hf]⟩
        | some fr =>
          cases hh : fr.hash with
          | none => exact ⟨⟨cur, true, none, .missing⟩, by simp [resolveGo, hv, hs, hf, hh]⟩
          | some h => exact ⟨⟨cur, false, some h, .file⟩, by simp [resolveGo, hv, hs, hf, hh]⟩
      | some sr =>
        cases ht : sr.target with
        | tnone => exact ⟨⟨cur, true, none, .broken⟩, by simp [resolveGo, hv, hs, ht]⟩
        | tother b =>
          have hb := hsafe _ (alookup_mem hs)
          rw [ht] at hb
          cases b with
          | false => exact ⟨⟨cur, true, none, .broken⟩, by simp [resolveGo, hv, hs, ht]⟩
          | true => simp [targetSafe] at hb
        | tstr s =>
          by_cases he : s.isEmpty
          · exact ⟨⟨cur, true, none, .broken⟩, by simp [resolveGo, hv, hs, ht, he]⟩
          · obtain ⟨r, hr⟩ := ih (nextPath cur s) (cur :: visited)
            exact ⟨r, by simp [resolveGo, hv, hs, ht, he, hr]⟩

/-- Unfold one hop at the front of a hop sequence. -/
theorem hopN_succ_left (sl : Symtab) (p : Str) (k : Nat) :
    hopN sl p (k + 1) =
      match symStep sl p with
      | some q => hopN sl q k
      | none => none := by
  induction k with
  | zero =>
    show (some p).bind (symStep sl) = _
    cases h : symStep sl p with
    | none => simp [Option.bind, h]
    | some q => simp [Option.bind, h, hopN]
  | succ k ih =>
    show (hopN sl p (k + 1)).bind (symStep sl) = _
    rw [ih]
    cases h : symStep sl p with
    | none => simp
    | some q => simp [hopN]

/-- Invert a successful hop into its constituents. -/
theorem symStep_inv {sl : Symtab} {cur q1 : Str} (h : symStep sl cur = some q1) :
    ∃ sr s, alookup sl cur = some sr ∧ sr.target = PyTarget.tstr s ∧
      s.isEmpty = false ∧ nextPath cur s = q1 := by
  cases hs : alookup sl cur with
  | none => simp [symStep, hs] at h
  | some sr =>
    cases hts : sr.target with
    | tnone => simp [symStep, hs, hts] at h
    | tother b => simp [symStep, hs, hts] at h
    | tstr s =>
      by_cases he : s.isEmpty
      · simp [symStep, hs, hts, he] at h
      · simp [symStep, hs, hts, he] at h
        exact ⟨sr, s, rfl, hts, Bool.eq_false_iff.mpr he, h⟩

/-- When the first `n` chain positions from `cur` are all fresh valid symlink
hops, the loop runs its fuel to exhaustion and reports `max_depth` at the
position reached after `n` hops. -/
theorem resolveGo_max_depth (sl : Symtab) (fl : Filetab) :
    ∀ (n : Nat) (cur : Str) (visited : List Str),
      (∀ k, k ≤ n → (hopN sl cur k).isSome) →
      (∀ k q, k < n → hopN sl cur k = some q → q ∉ visited) →
      (∀ i, i < n → ∀ j, j < n → hopN sl cur i = hopN sl cur j → i = j) →
      ∃ q, hopN sl cur n = some q ∧
        resolveGo sl fl cur visited n = .ok ⟨q, true, none, .max_depth⟩ := by
  intro n
  induction n with
  | zero => exact fun cur visited _ _ _ => ⟨cur, rfl, rfl⟩
  | succ n ih =>
    intro cur visited h1 h2 h3
    have hstep : (hopN sl cur 1).isSome := h1 1 (Nat.le_add_left 1 n)
    rw [hopN_succ_left] at hstep
    cases hq1 : symStep sl cur with
    | none => rw [hq1] at hstep; simp at hstep
    | some q1 =>
      have hnv : cur ∉ visited := h2 0 cur (Nat.succ_pos n) rfl
      have hshift : ∀ k, hopN sl cur (k + 1) = hopN sl q1 k := by
        intro k; rw [hopN_succ_left, hq1]
      obtain ⟨q, hq, hgo⟩ := ih q1 (cur :: visited)
        (fun k hk => by rw [← hshift]; exact h1 (k + 1) (Nat.succ_le_succ hk))
        (fun k q hk hkq => by
          rw [List.mem_cons]
          rintro (rfl | hmem)
          · have : k + 1 = 0 := h3 (k + 1) (Nat.succ_lt_succ hk) 0 (Nat.succ_pos n)
              (by rw [hshift]; exact hkq)
            exact Nat.succ_ne_zero k this
          · exact h2 (k + 1) q (Nat.succ_lt_succ hk) (by rw [hshift]; exact hkq) hmem)
        (fun i hi j hj hij =>
          Nat.succ_injective (h3 (i + 1) (Nat.succ_lt_succ hi) (j + 1)
            (Nat.succ_lt_succ hj) (by rw [hshift, hshift]; exact hij)))
      refine ⟨q, by rw [hshift]; exact hq, ?_⟩
      obtain ⟨sr, s, hsr, hts, hne, hnp⟩ := symStep_inv hq1
      simp [resolveGo, hnv, hsr, hts, hne, hnp, hgo]

/-- A `file` result can only arise at a chain position reached within the
depth bound: some `k < n` hops lead to a non-symlink path that is present in
the file table with a present hash. -/
theorem resolveGo_file_inv (sl : Symtab) (fl : Filetab) :
    ∀ (n : Nat) (cur : Str) (visited : List Str) (r : RRes),
      resolveGo sl fl cur visited n = .ok r → r.status = .file →
      ∃ k q, k < n ∧ hopN sl cur k = some q ∧ alookup sl q = none ∧
        ∃ fr h, alookup fl (fix_path q) = some fr ∧ fr.hash = some h ∧
          r = ⟨q, false, some h, .file⟩ := by
  intro n
  induction n with
  | zero =>
    intro cur visited r hr hst
    obtain rfl : (⟨cur, true, none, .max_depth⟩ : RRes) = r := by
      simpa [resolveGo] using hr
    simp at hst
  | succ n ih =>
    intro cur visited r hr hst
    by_cases hv : cur ∈ visited
    · obtain rfl : (⟨cur, true, none, .cycle⟩ : RRes) = r := by
        simpa [resolveGo, hv] using hr
      simp at hst
    · cases hs : alookup sl cur with
      | none =>
        cases hf : alookup fl (fix_path cur) with
        | none =>
          obtain rfl : (⟨cur, true, none, .missing⟩ : RRes) = r := by
            simpa [resolveGo, hv, hs, hf] using hr
          simp at hst
        | some fr =>
          cases hh : fr.hash with
          | none =>
            obtain rfl : (⟨cur, true, none, .missing⟩ : RRes) = r := by
              simpa [resolveGo, hv, hs, hf, hh] using hr
            simp at hst
          | some h =>
            obtain rfl : (⟨cur, false, some h, .file⟩ : RRes) = r := by
              simpa [resolveGo, hv, hs, hf, hh] using hr
            exact ⟨0, cur, Nat.succ_pos n, rfl, hs, fr, h, hf, hh, rfl⟩
      | some sr =>
        cases hts : sr.target with
        | tnone =>
          obtain rfl : (⟨cur, true, none, .broken⟩ : RRes) = r := by
            simpa [resolveGo, hv, hs, hts] using hr
          simp at hst
        | tother b =>
          cases b with
          | true => simp [resolveGo, hv, hs, hts] at hr
          | false =>
            obtain rfl : (⟨cur, true, none, .broken⟩ : RRes) = r := by
              simpa [resolveGo, hv, hs, hts] using hr
            simp at hst
        | tstr s =>
          by_cases he : s.isEmpty
          · obtain rfl : (⟨cur, true, none, .broken⟩ : RRes) = r := by
              simpa [resolveGo, hv, hs, hts, he] using hr
            simp at hst
          · have hr' : resolveGo sl fl (nextPath cur s) (cur :: visited) n = .ok r := by
              simpa [resolveGo, hv, hs, hts, he] using hr
            obtain ⟨k, q, hk, hq, hrest⟩ := ih (nextPath cur s) (cur :: visited) r hr' hst
            refine ⟨k + 1, q, Nat.succ_lt_succ hk, ?_, hrest⟩
            rw [hopN_succ_left]
            have hstep : symStep sl cur = some (nextPath cur s) := by
              simp [symStep, hs, hts, he]
            rw [hstep]
            exact hq

/-- A string whose head is not a slash is unchanged by `lstrip("/")`. -/
theorem pyLstrip_no_slash {s : Str} (h : s.head? ≠ some '/') : pyLstrip s = s := by
  cases s with
  | nil => rfl
  | cons c cs =>
    have hc : ¬c = '/' := fun hcc => h (by rw [hcc]; rfl)
    simp [pyLstrip, List.dropWhile_cons, hc]

/-- `lstrip("/")` drops a leading slash. -/
theorem pyLstrip_cons_slash (s : Str) : pyLstrip ('/' :: s) = pyLstrip s := by
  simp [pyLstrip, List.dropWhile_cons]

/-- An absolute target `'/' :: b` with `b` not starting in a slash steps the
resolver to exactly `b`. -/
theorem nextPath_abs {a b : Str} (hB : b.head? ≠ some '/') :
    nextPath a ('/' :: b) = b := by
  simp [nextPath, pyLstrip_cons_slash, pyLstrip_no_slash hB]

/-- Adding an entry for a fresh key does not disturb an existing entry. -/
theorem resolve_chain_preserves_entry {p q : Str} {sl : Symtab} {fl : Filetab}
    {c : Cache} {maxd : Nat} {r : RRes} {r2 : RRes} {c'' : Cache}
    (h1 : alookup c p = some r)
    (h2 : resolve_symlink_chain q sl fl c maxd = .ok (r2, c'')) :
    alookup c'' p = some r := by
  cases hq : alookup c q with
  | some r0 =>
    simp [resolve_symlink_chain, hq] at h2
    rw [← h2.2]
    exact h1
  | none =>
    cases hgo : resolveGo sl fl q [] maxd with
    | error e => simp [resolve_symlink_chain, hq, hgo] at h2
    | ok r3 =>
      simp [resolve_symlink_chain, hq, hgo] at h2
      rw [← h2.2]
      have hne : q ≠ p := fun hqp => by rw [hqp] at hq; rw [hq] at h1; exact absurd h1 (by simp)
      rw [alookup_cons_ne hne]
      exact h1

/-! Claim C1. -/

/-- C1: for every start path, symlink table and file table,
`resolve_symlink_chain` terminates (it is a total function of its fuel
`max_depth`), and whenever the chain from the start path offers `max_depth`
(in particular: more than `max_depth`) valid, pairwise distinct symlink hops,
the call returns status `max_depth` — never `file` — instead of following the
chain further. -/
theorem resolve_chain_exceeding_depth_returns_max_depth
    (sl : Symtab) (fl : Filetab) (p : Str) (maxd : Nat)
    (hvalid : ∀ k, k ≤ maxd → (hopN sl p k).isSome)
    (hdist : ∀ i, i < maxd → ∀ j, j < maxd → hopN sl p i = hopN sl p j → i = j) :
    ∃ q c, hopN sl p maxd = some q ∧
      resolve_symlink_chain p sl fl [] maxd =
        .ok (⟨q, true, none, .max_depth⟩, c) := by
  obtain ⟨q, hq, hgo⟩ := resolveGo_max_depth sl fl maxd p []
    hvalid (fun k q _ _ => List.not_mem_nil q) hdist
  refine ⟨q, [(p, ⟨q, true, none, .max_depth⟩)], hq, ?_⟩
  have hc0 : alookup ([] : Cache) p = none := rfl
  simp [resolve_symlink_chain, hc0, hgo]

/-- Witness for C1 at a concrete two-hop chain with `max_depth = 2`. -/
theorem resolve_chain_exceeding_depth_returns_max_depth_witness :
    ∃ q c, hopN slChain2 (strL "a") 2 = some q ∧
      resolve_symlink_chain (strL "a") slChain2 [] [] 2 =
        .ok (⟨q, true, none, .max_depth⟩, c) :=
  resolve_chain_exceeding_depth_returns_max_depth slChain2 [] (strL "a") 2
    (by decide) (by decide)

/-! Claim C10. -/

/-- C10: a chain of exactly `max_depth` valid hops whose end is a present
file with a present hash still resolves to status `max_depth`, not `file`;
and conversely a `file` result only ever arises when some position reachable
in strictly fewer than `max_depth` hops is a non-symlink present in the file
table with a present hash. -/
theorem resolve_chain_file_only_below_bound :
    (∀ (sl : Symtab) (fl : Filetab) (p : Str) (maxd : Nat) (q : Str)
       (fr : FileRec) (h : Str),
      (∀ k, k ≤ maxd → (hopN sl p k).isSome) →
      (∀ i, i < maxd → ∀ j, j < maxd → hopN sl p i = hopN sl p j → i = j) →
      hopN sl p maxd = some q →
      alookup sl q = none →
      alookup fl (fix_path q) = some fr →
      fr.hash = some h →
      ∃ c, resolve_symlink_chain p sl fl [] maxd =
        .ok (⟨q, true, none, .max_depth⟩, c)) ∧
    (∀ (sl : Symtab) (fl : Filetab) (p : Str) (maxd : Nat) (r : RRes) (c : Cache),
      resolve_symlink_chain p sl fl [] maxd = .ok (r, c) → r.status = .file →
      ∃ k q, k < maxd ∧ hopN sl p k = some q ∧ alookup sl q = none ∧
        ∃ fr h, alookup fl (fix_path q) = some fr ∧ fr.hash = some h ∧
          r = ⟨q, false, some h, .file⟩) := by
  constructor
  · intro sl fl p maxd q fr h hvalid hdist hq _ _ _
    obtain ⟨q', c0, hq', hres⟩ :=
      resolve_chain_exceeding_depth_returns_max_depth sl fl p maxd hvalid hdist
    obtain rfl : q' = q := by rw [hq] at hq'; exact (Option.some_injective _ hq').symm
    exact ⟨c0, hres⟩
  · intro sl fl p maxd r c hres hst
    have hc0 : alookup ([] : Cache) p = none := rfl
    cases hgo : resolveGo sl fl p [] maxd with
    | error e => simp [resolve_symlink_chain, hc0, hgo] at hres
    | ok r0 =>
      simp [resolve_symlink_chain, hc0, hgo] at hres
      obtain ⟨rfl, rfl⟩ := hres
      exact resolveGo_file_inv sl fl maxd p [] r0 hgo hst

/-- Witness for C10: with `max_depth = 1` a single valid hop onto a present
file already reports `max_depth`, while a direct hit reports `file` and is
explained by a position strictly below the bound. -/
theorem resolve_chain_file_only_below_bound_witness :
    (∃ c, resolve_symlink_chain (strL "a") slToFile flOneFile [] 1 =
      .ok (⟨strL "f", true, none, .max_depth⟩, c)) ∧
    (∃ k q, k < 20 ∧ hopN slToFile (strL "f") k = some q ∧
      alookup slToFile q = none ∧
      ∃ fr h, alookup flOneFile (fix_path q) = some fr ∧ fr.hash = some h ∧
        (⟨strL "f", false, some (strL "h"), .file⟩ : RRes) = ⟨q, false, some h, .file⟩) :=
  ⟨resolve_chain_file_only_below_bound.1 slToFile flOneFile (strL "a") 1 (strL "f")
      ⟨some (strL "h")⟩ (strL "h") (by decide) (by decide) (by decide) (by decide)
      (by decide) (by decide),
   resolve_chain_file_only_below_bound.2 slToFile flOneFile (strL "f") 20
      ⟨strL "f", false, some (strL "h"), .file⟩
      [(strL "f", ⟨strL "f", false, some (strL "h"), .file⟩)] rfl rfl⟩

/-! Claim C5. -/

/-- C5: two symlinks pointing at each other resolve to status `cycle`,
terminating after two hops, well within any hop bound of at least three. -/
theorem resolve_chain_mutual_cycle (sl : Symtab) (fl : Filetab) (cache : Cache)
    (a b : Str) (maxd : Nat)
    (hab : a ≠ b)
    (ha : alookup sl a = some ⟨.tstr ('/' :: b)⟩)
    (hb : alookup sl b = some ⟨.tstr ('/' :: a)⟩)
    (hA : a.head? ≠ some '/') (hB : b.head? ≠ some '/')
    (hc : alookup cache a = none)
    (hmax : 3 ≤ maxd) :
    resolve_symlink_chain a sl fl cache maxd =
      .ok (⟨a, true, none, .cycle⟩, (a, ⟨a, true, none, .cycle⟩) :: cache) := by
  obtain ⟨m, rfl⟩ : ∃ m, maxd = m + 3 := ⟨maxd - 3, by omega⟩
  have hgo : resolveGo sl fl a [] (m + 3) = .ok ⟨a, true, none, .cycle⟩ := by
    have step1 : resolveGo sl fl a [] (m + 3) = resolveGo sl fl b [a] (m + 2) := by
      simp [resolveGo, ha, nextPath_abs hB]
    have step2 : resolveGo sl fl b [a] (m + 2) = resolveGo sl fl a [b, a] (m + 1) := by
      simp [resolveGo, hb, nextPath_abs hA, Ne.symm hab]
    have step3 : resolveGo sl fl a [b, a] (m + 1) = .ok ⟨a, true, none, .cycle⟩ := by
      have hmem : a ∈ [b, a] := by simp
      simp [resolveGo, hmem]
    rw [step1, step2, step3]
  simp [resolve_symlink_chain, hc, hgo]

/-- Witness for C5 at the concrete two-cycle `a -> /b`, `b -> /a`. -/
theorem resolve_chain_mutual_cycle_witness :
    resolve_symlink_chain (strL "a") slCycle [] [] 20 =
      .ok (⟨strL "a", true, none, .cycle⟩,
        (strL "a", ⟨strL "a", true, none, .cycle⟩) :: []) :=
  resolve_chain_mutual_cycle slCycle [] [] (strL "a") (strL "b") 20
    (by decide) (by decide) (by decide) (by decide) (by decide) (by decide) (by decide)

/-! Claim C7. -/

/-- C7: whenever `resolve_symlink_chain` returns a result, the returned cache
binds the original start path to exactly that result (every terminal status
included); a repeated call with the same start path and the returned cache
reproduces the result and leaves the cache untouched; and no later call for
any other path ever overwrites or invalidates the entry. -/
theorem resolve_chain_cache_write_once (p : Str) (sl : Symtab) (fl : Filetab)
    (c : Cache) (maxd : Nat) (r : RRes) (c' : Cache)
    (h : resolve_symlink_chain p sl fl c maxd = .ok (r, c')) :
    alookup c' p = some r ∧
    resolve_symlink_chain p sl fl c' maxd = .ok (r, c') ∧
    ∀ q r2 c'', resolve_symlink_chain q sl fl c' maxd = .ok (r2, c'') →
      alookup c'' p = some r := by
  have h1 : alookup c' p = some r := by
    cases hc0 : alookup c p with
    | some r0 =>
      simp [resolve_symlink_chain, hc0] at h
      rw [← h.2, hc0, h.1]
    | none =>
      cases hgo : resolveGo sl fl p [] maxd with
      | error e => simp [resolve_symlink_chain, hc0, hgo] at h
      | ok r0 =>
        simp [resolve_symlink_chain, hc0, hgo] at h
        rw [← h.2, ← h.1]
        exact alookup_cons_self
  refine ⟨h1, by simp [resolve_symlink_chain, h1], ?_⟩
  intro q r2 c'' h2
  exact resolve_chain_preserves_entry h1 h2

/-- Witness for C7 at a concrete `broken` resolution. -/
theorem resolve_chain_cache_write_once_witness :
    alookup [(strL "a", (⟨strL "a", true, none, .broken⟩ : RRes))] (strL "a") =
      some ⟨strL "a", true, none, .broken⟩ ∧
    resolve_symlink_chain (strL "a") slNoneTarget []
      [(strL "a", ⟨strL "a", true, none, .broken⟩)] 20 =
      .ok (⟨strL "a", true, none, .broken⟩,
        [(strL "a", ⟨strL "a", true, none, .broken⟩)]) ∧
    ∀ q r2 c'', resolve_symlink_chain q slNoneTarget []
        [(strL "a", ⟨strL "a", true, none, .broken⟩)] 20 = .ok (r2, c'') →
      alookup c'' (strL "a") = some ⟨strL "a", true, none, .broken⟩ :=
  resolve_chain_cache_write_once (strL "a") slNoneTarget [] [] 20
    ⟨strL "a", true, none, .broken⟩
    [(strL "a", ⟨strL "a", true, none, .broken⟩)] rfl

/-! Claim C2. -/

/-- C2 counterexample: a symlink whose target is a truthy non-string value
(e.g. the JSON number 5) makes `resolve_symlink_chain` raise an
`AttributeError` at `target.startswith` instead of returning a result, so the
claim that every malformed target yields a well-defined result with status
`broken` is false as stated. -/
theorem resolve_chain_raises_on_truthy_nonstring :
    resolve_symlink_chain (strL "a") slBadTarget [] [] 20 = .error () := rfl

/-- C2 as amended: when every symlink target is a string or a falsy value,
`resolve_symlink_chain` always returns a well-defined result; and a reached
absent or otherwise falsy target is reported as status `broken`. -/
theorem resolve_chain_total_when_targets_safe (p : Str) (sl : Symtab)
    (fl : Filetab) (c : Cache) (maxd : Nat)
    (hsafe : ∀ pr ∈ sl, targetSafe pr.2.target = true) :
    (∃ r c', resolve_symlink_chain p sl fl c maxd = .ok (r, c')) ∧
    (∀ sr, alookup c p = none → alookup sl p = some sr →
      sr.target.falsy = true → 1 ≤ maxd →
      ∃ c', resolve_symlink_chain p sl fl c maxd =
        .ok (⟨p, true, none, .broken⟩, c')) := by
  constructor
  · cases hc0 : alookup c p with
    | some r => exact ⟨r, c, by simp [resolve_symlink_chain, hc0]⟩
    | none =>
      obtain ⟨r, hr⟩ := resolveGo_total sl fl hsafe maxd p []
      exact ⟨r, (p, r) :: c, by simp [resolve_symlink_chain, hc0, hr]⟩
  · intro sr hc0 hsl hfalsy hmax
    obtain ⟨m, rfl⟩ : ∃ m, maxd = m + 1 := ⟨maxd - 1, by omega⟩
    have hgo : resolveGo sl fl p [] (m + 1) = .ok ⟨p, true, none, .broken⟩ := by
      cases hts : sr.target with
      | tnone => simp [resolveGo, hsl, hts]
      | tother b =>
        rw [hts] at hfalsy
        obtain rfl : b = false := by simpa [PyTarget.falsy] using hfalsy
        simp [resolveGo, hsl, hts]
      | tstr s =>
        rw [hts] at hfalsy
        have hse : s.isEmpty = true := by simpa [PyTarget.falsy] using hfalsy
        simp [resolveGo, hsl, hts, hse]
    exact ⟨(p, ⟨p, true, none, .broken⟩) :: c,
      by simp [resolve_symlink_chain, hc0, hgo]⟩

/-- Witness for the amended C2 at a concrete absent-target symlink. -/
theorem resolve_chain_total_when_targets_safe_witness :
    ∃ c', resolve_symlink_chain (strL "a") slNoneTarget [] [] 20 =
      .ok (⟨strL "a", true, none, .broken⟩, c') :=
  (resolve_chain_total_when_targets_safe (strL "a") slNoneTarget [] [] 20
    (by decide)).2 ⟨.tnone⟩ (by decide) (by decide) (by decide) (by decide)

/-! Lemmas about the package-mapping analyzer, towards claim C9. -/

/-- Looking up the key just fed to `addObs`. -/
theorem alookup_addObs_self (pm : List (Str × List Str)) (k : Str) (v : Str) :
    alookup (addObs pm k v) k =
      some (insertOnce ((alookup pm k).getD []) v) := by
  induction pm with
  | nil => simp [addObs, alookup, insertOnce]
  | cons hd rest ih =>
    obtain ⟨k0, vs⟩ := hd
    by_cases hk : k0 = k
    · subst hk
      simp [addObs, alookup]
    · simp [addObs, hk, alookup, ih]

/-- `addObs` leaves every other key untouched. -/
theorem alookup_addObs_ne (pm : List (Str × List Str)) {k k' : Str} (v : Str)
    (hne : k ≠ k') : alookup (addObs pm k v) k' = alookup pm k' := by
  induction pm with
  | nil => simp [addObs, alookup, hne]
  | cons hd rest ih =>
    obtain ⟨k0, vs⟩ := hd
    by_cases hk : k0 = k
    · subst hk
      simp [addObs, alookup, hne]
    · by_cases hk' : k0 = k'
      · subst hk'
        simp [addObs, hk, alookup]
      · simp [addObs, hk, alookup, hk', ih]

/-- What the package-mapping fold associates to one package: the first-seen
deduplication of the observations contributed by the processed entries,
appended to whatever the accumulator already held. -/
theorem pm_fold_lookup :
    ∀ (ms : List (Str × Str)) (acc : List (Str × List Str)) (pkg : Str),
      alookup (List.foldl pmStep acc ms) pkg =
        (match alookup acc pkg, obsTargets ms pkg with
         | none, [] => none
         | none, obs => some (List.foldl insertOnce [] obs)
         | some vs, obs => some (List.foldl insertOnce vs obs)) := by
  intro ms
  induction ms with
  | nil =>
    intro acc pkg
    cases h : alookup acc pkg with
    | none => simp [obsTargets, h]
    | some vs => simp [obsTargets, h]
  | cons m rest ih =>
    intro acc pkg
    have hobs : obsTargets (m :: rest) pkg =
        (match pkgSearch m.1, pkgSearch m.2 with
         | some p1, some p2 => if p1 = pkg then p2 :: obsTargets rest pkg
                               else obsTargets rest pkg
         | _, _ => obsTargets rest pkg) := by
      cases h1 : pkgSearch m.1 with
      | none => simp [obsTargets, List.filterMap_cons, h1]
      | some p1 =>
        cases h2 : pkgSearch m.2 with
        | none => simp [obsTargets, List.filterMap_cons, h1, h2]
        | some p2 =>
          by_cases hp : p1 = pkg
          · simp [obsTargets, List.filterMap_cons, h1, h2, hp]
          · simp [obsTargets, List.filterMap_cons, h1, h2, hp]
    rw [List.foldl_cons, hobs]
    cases h1 : pkgSearch m.1 with
    | none =>
      have hstep : pmStep acc m = acc := by simp [pmStep, h1]
      rw [hstep]
      exact ih acc pkg
    | some p1 =>
      cases h2 : pkgSearch m.2 with
      | none =>
        have hstep : pmStep acc m = acc := by simp [pmStep, h1, h2]
        rw [hstep]
        exact ih acc pkg
      | some p2 =>
        have hstep : pmStep acc m = addObs acc p1 p2 := by simp [pmStep, h1, h2]
        rw [hstep, ih (addObs acc p1 p2) pkg]
        by_cases hp : p1 = pkg
        · subst hp
          rw [alookup_addObs_self]
          cases hacc : alookup acc p1 with
          | none =>
            simp only [Option.getD, if_pos rfl]
            cases hrest : obsTargets rest p1 <;> simp [insertOnce]
          | some vs =>
            simp only [Option.getD, if_pos rfl]
            cases hrest : obsTargets rest p1 <;> simp [List.foldl_cons]
        · rw [alookup_addObs_ne acc p2 hp]
          simp [hp]

/-- The keys produced by `addObs`. -/
theorem addObs_keys (pm : List (Str × List Str)) (k : Str) (v : Str) :
    (addObs pm k v).map Prod.fst =
      if k ∈ pm.map Prod.fst then pm.map Prod.fst
      else pm.map Prod.fst ++ [k] := by
  induction pm with
  | nil => simp [addObs]
  | cons hd rest ih =>
    obtain ⟨k0, vs⟩ := hd
    by_cases hk : k0 = k
    · subst hk
      simp [addObs]
    · have hne : ¬k = k0 := fun h => hk h.symm
      simp only [addObs, if_neg hk, List.map_cons, ih, List.mem_cons]
      by_cases hmem : k ∈ rest.map Prod.fst
      · simp [hmem]
      · simp [hmem, hne]

/-- The package-mapping fold keeps its keys duplicate-free. -/
theorem pm_fold_keys_nodup :
    ∀ (ms : List (Str × Str)) (acc : List (Str × List Str)),
      (acc.map Prod.fst).Nodup →
      ((List.foldl pmStep acc ms).map Prod.fst).Nodup := by
  intro ms
  induction ms with
  | nil => exact fun acc h => h
  | cons m rest ih =>
    intro acc hacc
    rw [List.foldl_cons]
    refine ih (pmStep acc m) ?_
    unfold pmStep
    cases h1 : pkgSearch m.1 with
    | none => exact hacc
    | some p1 =>
      cases h2 : pkgSearch m.2 with
      | none => exact hacc
      | some p2 =>
        rw [addObs_keys]
        by_cases hmem : p1 ∈ acc.map Prod.fst
        · rw [if_pos hmem]; exact hacc
        · rw [if_neg hmem]
          simp [List.nodup_append, hacc, hmem]

/-- A key absent from the association list looks up to nothing. -/
theorem alookup_eq_none {α : Type} {l : List (Str × α)} {k : Str}
    (h : k ∉ l.map Prod.fst) : alookup l k = none := by
  induction l with
  | nil => rfl
  | cons hd rest ih =>
    obtain ⟨k0, v0⟩ := hd
    simp only [List.map_cons, List.mem_cons] at h
    push_neg at h
    rw [alookup, if_neg (fun he => h.1 he.symm)]
    exact ih h.2

/-- Keys of the consistent bucket come from the package mappings. -/
theorem consFn_keys_sub (pm : List (Str × List Str)) (key : Str)
    (h : key ∈ (pm.filterMap consFn).map Prod.fst) : key ∈ pm.map Prod.fst := by
  rw [List.mem_map] at h
  obtain ⟨⟨k1, t1⟩, hin, hkey⟩ := h
  rw [List.mem_filterMap] at hin
  obtain ⟨⟨k0, vs⟩, hin0, heq⟩ := hin
  match vs, heq with
  | [t0], heq =>
    simp [consFn] at heq
    obtain ⟨rfl, rfl⟩ := heq
    exact hkey ▸ List.mem_map_of_mem Prod.fst hin0

/-- Looking up a package in the consistent bucket, assuming the package
mappings have duplicate-free keys. -/
theorem cons_lookup (pm : List (Str × List Str)) (pkg : Str)
    (hnd : (pm.map Prod.fst).Nodup) :
    alookup (pm.filterMap consFn) pkg =
      (match alookup pm pkg with
       | some [t] => some t
       | _ => none) := by
  induction pm with
  | nil => rfl
  | cons hd rest ih =>
    obtain ⟨k0, vs⟩ := hd
    simp only [List.map_cons, List.nodup_cons] at hnd
    obtain ⟨hk0, hndr⟩ := hnd
    by_cases hk : k0 = pkg
    · subst hk
      rw [List.filterMap_cons]
      have hrest : alookup (rest.filterMap consFn) k0 = none := by
        cases hl : alookup (rest.filterMap consFn) k0 with
        | none => rfl
        | some t =>
          exact absurd (consFn_keys_sub rest k0
            (List.mem_map_of_mem Prod.fst (alookup_mem hl))) hk0
      match vs with
      | [] => rw [show consFn (k0, ([] : List Str)) = none from rfl, hrest, alookup_cons_self]
      | [t] => rw [show consFn (k0, [t]) = some (k0, t) from rfl, alookup_cons_self, alookup_cons_self]
      | t1 :: t2 :: ts => rw [show consFn (k0, t1 :: t2 :: ts) = none from rfl, hrest, alookup_cons_self]
    · rw [List.filterMap_cons]
      have htail : alookup ((k0, vs) :: rest) pkg = alookup rest pkg :=
        alookup_cons_ne hk
      cases hcf : consFn (k0, vs) with
      | none => rw [htail]; exact ih hndr
      | some kt =>
        have hkt : kt.1 = k0 := by
          match vs, hcf with
          | [t], hcf => simp [consFn] at hcf; rw [← hcf]
        rw [htail, ← ih hndr]
        have : kt.1 ≠ pkg := hkt ▸ hk
        cases kt with
        | mk a b => exact alookup_cons_ne (by simpa using this)

/-- Looking up a package in the inconsistent bucket, assuming the package
mappings have duplicate-free keys. -/
theorem incons_lookup (pm : List (Str × List Str)) (pkg : Str)
    (hnd : (pm.map Prod.fst).Nodup) :
    alookup (pm.filter inconsFn) pkg =
      (match alookup pm pkg with
       | some vs => if vs.length ≠ 1 then some vs else none
       | none => none) := by
  induction pm with
  | nil => rfl
  | cons hd rest ih =>
    obtain ⟨k0, vs⟩ := hd
    simp only [List.map_cons, List.nodup_cons] at hnd
    obtain ⟨hk0, hndr⟩ := hnd
    have hrestnone : pkg = k0 → alookup (rest.filter inconsFn) k0 = none := by
      intro _
      cases hl : alookup (rest.filter inconsFn) k0 with
      | none => rfl
      | some t =>
        have hmem := alookup_mem hl
        have : k0 ∈ rest.map Prod.fst :=
          List.mem_map_of_mem Prod.fst (List.mem_of_mem_filter hmem)
        exact absurd this hk0
    by_cases hk : k0 = pkg
    · subst hk
      rw [List.filter_cons, alookup_cons_self]
      by_cases hlen : inconsFn (k0, vs)
      · rw [if_pos hlen, alookup_cons_self]
        have hne1 : vs.length ≠ 1 := by simpa [inconsFn] using hlen
        simp [hne1]
      · rw [if_neg hlen, hrestnone rfl]
        have heq1 : vs.length = 1 := by simpa [inconsFn] using hlen
        simp [heq1]
    · rw [List.filter_cons, alookup_cons_ne hk]
      by_cases hlen : inconsFn (k0, vs)
      · rw [if_pos hlen, alookup_cons_ne hk]
        exact ih hndr
      · rw [if_neg hlen]
        exact ih hndr

/-- What `package_mappings_of` associates to a package: nothing when there
are no observations, otherwise the first-seen deduplication of all its
observations. -/
theorem package_mappings_lookup (mappings : List (Str × Str)) (pkg : Str) :
    alookup (package_mappings_of mappings) pkg =
      (match obsTargets mappings pkg with
       | [] => none
       | obs => some (dedupObs obs)) := by
  rw [package_mappings_of, pm_fold_lookup mappings [] pkg]
  cases h : obsTargets mappings pkg with
  | nil => rfl
  | cons o os => rfl

/-- The keys of the package-mapping dictionary are duplicate-free. -/
theorem package_mappings_nodup (mappings : List (Str × Str)) :
    ((package_mappings_of mappings).map Prod.fst).Nodup :=
  pm_fold_keys_nodup mappings [] List.nodup_nil

/-! Claim C9. -/

/-- C9: `analyze_store_paths` reports a source package as consistent exactly
when its set of observed target package names has exactly one member, and
then reports that single member; it reports the package as inconsistent,
with the full list of observed alternatives, exactly when that set has two or
more members.  In particular the observations (A,X), (A,X), (A,Y) make `A`
inconsistent with alternatives `[X, Y]`, while (A,X), (A,X) alone make `A`
consistent with `X`. -/
theorem analyze_store_paths_consistency :
    (∀ (mappings : List (Str × Str)) (pkg t : Str),
      alookup (analyze_store_paths mappings).consistent_package_mappings pkg =
          some t ↔
        dedupObs (obsTargets mappings pkg) = [t]) ∧
    (∀ (mappings : List (Str × Str)) (pkg : Str) (l : List Str),
      alookup (analyze_store_paths mappings).inconsistent_package_mappings pkg =
          some l ↔
        (l = dedupObs (obsTargets mappings pkg) ∧
          obsTargets mappings pkg ≠ [] ∧ l.length ≠ 1)) ∧
    alookup (analyze_store_paths mapsAXY).inconsistent_package_mappings
      (strL "A") = some [strL "X", strL "Y"] ∧
    alookup (analyze_store_paths mapsAXY).consistent_package_mappings
      (strL "A") = none ∧
    alookup (analyze_store_paths mapsAXX).consistent_package_mappings
      (strL "A") = some (strL "X") ∧
    alookup (analyze_store_paths mapsAXX).inconsistent_package_mappings
      (strL "A") = none := by
  refine ⟨?_, ?_, by decide, by decide, by decide, by decide⟩
  · intro mappings pkg t
    have hre : (analyze_store_paths mappings).consistent_package_mappings =
        (package_mappings_of mappings).filterMap consFn := rfl
    rw [hre, cons_lookup (package_mappings_of mappings) pkg
      (package_mappings_nodup mappings), package_mappings_lookup mappings pkg]
    cases hobs : obsTargets mappings pkg with
    | nil => simp [dedupObs]
    | cons o os =>
      cases hdd : dedupObs (o :: os) with
      | nil => simp [hdd]
      | cons d ds =>
        cases ds with
        | nil => simp [hdd]
        | cons d2 ds2 => simp [hdd]
  · intro mappings pkg l
    have hre : (analyze_store_paths mappings).inconsistent_package_mappings =
        (package_mappings_of mappings).filter inconsFn := rfl
    rw [hre, incons_lookup (package_mappings_of mappings) pkg
      (package_mappings_nodup mappings), package_mappings_lookup mappings pkg]
    cases hobs : obsTargets mappings pkg with
    | nil => simp
    | cons o os =>
      show (if (dedupObs (o :: os)).length ≠ 1 then some (dedupObs (o :: os))
        else none) = some l ↔ _
      by_cases hlen : (dedupObs (o :: os)).length ≠ 1
      · rw [if_pos hlen]
        constructor
        · intro h
          obtain rfl : dedupObs (o :: os) = l := by simpa using h
          exact ⟨rfl, by simp, hlen⟩
        · intro ⟨h1, _, _⟩
          rw [h1]
      · rw [if_neg hlen]
        push_neg at hlen
        constructor
        · intro h
          exact absurd h (by simp)
        · intro ⟨h1, _, h3⟩
          rw [h1] at h3
          exact absurd hlen h3

/-! Lemmas about the normalization scanner, towards claims C6 and C3. -/

theorem subScanF_nil : ∀ n, subScanF n [] = []
  | 0 => rfl
  | _ + 1 => rfl

theorem stripRoot_nil : stripRoot [] = none := rfl

theorem matchAt_none_of_stripRoot_none {s : Str} (h : stripRoot s = none) :
    matchAt s = none := by
  simp [matchAt, h]

/-- Unfold the membership in the three-element root list. -/
theorem roots_cases {root : Str} (hr : root ∈ roots) :
    root = rootRO ∨ root = rootRW ∨ root = rootPlain := by
  simpa [roots] using hr

/-- A list is a Boolean prefix of itself followed by anything. -/
theorem isPrefixOf_self_append (l t : Str) : l.isPrefixOf (l ++ t) = true :=
  List.isPrefixOf_iff_prefix.mpr (List.prefix_append l t)

/-- Two lists that already disagree within their first `k` elements cannot
stand in the Boolean prefix relation, whatever follows. -/
theorem not_prefixOf_of_take_ne {a b : Str} (t : Str) (k : Nat)
    (hka : k ≤ a.length) (hkb : k ≤ b.length)
    (hne : a.take k ≠ b.take k) : a.isPrefixOf (b ++ t) = false := by
  apply Bool.eq_false_iff.mpr
  intro hcon
  have hpre := List.prefix_iff_eq_take.mp (List.isPrefixOf_iff_prefix.mp hcon)
  have hk := congrArg (List.take k) hpre
  rw [List.take_take, Nat.min_eq_left hka, List.take_append_of_le_length hkb] at hk
  exact hne hk

/-- A store root at the head of the input is recognised and stripped. -/
theorem stripRoot_append {root : Str} (hr : root ∈ roots) (t : Str) :
    stripRoot (root ++ t) = some (root, t) := by
  rcases roots_cases hr with rfl | rfl | rfl
  · simp [stripRoot, isPrefixOf_self_append, List.drop_left]
  · have hno : rootRO.isPrefixOf (rootRW ++ t) = false :=
      not_prefixOf_of_take_ne t 7 (by decide) (by decide) (by decide)
    simp [stripRoot, hno, isPrefixOf_self_append, List.drop_left]
  · have hno : rootRO.isPrefixOf (rootPlain ++ t) = false :=
      not_prefixOf_of_take_ne t 5 (by decide) (by decide) (by decide)
    have hnw : rootRW.isPrefixOf (rootPlain ++ t) = false :=
      not_prefixOf_of_take_ne t 5 (by decide) (by decide) (by decide)
    simp [stripRoot, hno, hnw, isPrefixOf_self_append, List.drop_left]

/-- A store root followed by anything starts with `'n'`. -/
theorem roots_append_head {root : Str} (hr : root ∈ roots) (t : Str) :
    (root ++ t).head? = some 'n' := by
  rcases roots_cases hr with rfl | rfl | rfl
  · rfl
  · rfl
  · rfl

/-- The store-segment pattern matches right at a well-formed segment. -/
theorem matchAt_store {root h : Str} (hr : root ∈ roots) (h32 : h.length = 32)
    (hall : h.all isLowerAlnum = true) (tail : Str) :
    matchAt (root ++ (h ++ '-' :: tail)) =
      (match tail.takeWhile (fun c => c != '\n') with
       | [] => none
       | g => some (root ++ hashTok ++ '-' :: g,
           tail.dropWhile (fun c => c != '\n'))) := by
  simp only [matchAt, stripRoot_append hr, List.take_left' h32,
    List.drop_left' h32, h32, hall, List.all_append]
  simp

/-- A newline-free list survives `takeWhile` intact. -/
theorem takeWhile_nl_eq_self {l : Str} (h : ∀ c ∈ l, c ≠ '\n') :
    l.takeWhile (fun c => c != '\n') = l :=
  List.takeWhile_eq_self_iff.mpr (fun x hx => by simpa using h x hx)

/-- A newline-free list is dropped entirely by `dropWhile`. -/
theorem dropWhile_nl_eq_nil {l : Str} (h : ∀ c ∈ l, c ≠ '\n') :
    l.dropWhile (fun c => c != '\n') = [] :=
  List.dropWhile_eq_nil_iff.mpr (fun x hx => by simpa using h x hx)

/-- When the whole input is one match, the substitution is the replacement. -/
theorem pySub_single_match {s rep : Str} (hs : s ≠ [])
    (hm : matchAt s = some (rep, [])) : pySub s = rep := by
  obtain ⟨c, cs, rfl⟩ := List.exists_cons_of_ne_nil hs
  show subScanF (c :: cs).length (c :: cs) = rep
  rw [List.length_cons]
  simp [subScanF, hm, subScanF_nil]

/-- A scan over an input without any match leaves it untouched. -/
theorem subScanF_id_of_hasSeg_false :
    ∀ (n : Nat) (t : Str), hasSeg t = false → subScanF n t = t := by
  intro n
  induction n with
  | zero => intro t _; rfl
  | succ n ih =>
    intro t ht
    cases t with
    | nil => rfl
    | cons c cs =>
      rw [hasSeg] at ht
      simp only [Bool.or_eq_false_iff] at ht
      have h1 : matchAt (c :: cs) = none :=
        Option.not_isSome_iff_eq_none.mp (by simp [ht.1])
      simp [subScanF, h1, ih cs ht.2]

/-! Claim C6. -/

/-- C6 counterexample: the path
`nix/store/aaaaaaaaaaaaaaaaaaaaaaaaaaaaaaaa-\nn/r` has the exact shape
store-root / 32-char hash `-` name `/` rest (with name = `"\nn"`), yet
`normalize_path` returns it entirely unchanged, because `(.+)` of the
substitution regex cannot match the newline that opens the name; the claimed
output, with the hash replaced by `HASH`, is a different string. -/
theorem normalize_path_newline_segment_unchanged :
    normalize_path pNewline = pNewline ∧
    pNewline ≠ strL "nix/store/" ++ hashTok ++ ('-' :: '\n' :: strL "n/r") := by
  constructor
  · decide
  · decide

/-- C6 as amended: for every recognised store root, 32-character lowercase
alphanumeric hash, and newline-free `name` and `rest`, normalizing
`root/hash-name/rest` gives `root/HASH-name/rest` with `name` and `rest`
preserved verbatim; and every path in which the store-segment pattern matches
nowhere is returned unchanged except for stripping leading slashes. -/
theorem normalize_path_store_segment :
    (∀ (root h name rest : Str), root ∈ roots → h.length = 32 →
      h.all isLowerAlnum = true →
      (∀ c ∈ name, c ≠ '\n') → (∀ c ∈ rest, c ≠ '\n') →
      normalize_path (root ++ (h ++ '-' :: (name ++ '/' :: rest))) =
        root ++ (hashTok ++ '-' :: (name ++ '/' :: rest))) ∧
    (∀ p : Str, hasSeg (pyLstrip p) = false → normalize_path p = pyLstrip p) := by
  constructor
  · intro root h name rest hr h32 hall hname hrest
    have htail : ∀ c ∈ name ++ '/' :: rest, c ≠ '\n' := by
      intro c hc
      rcases List.mem_append.mp hc with hc | hc
      · exact hname c hc
      · rcases List.mem_cons.mp hc with rfl | hc
        · decide
        · exact hrest c hc
    have hm : matchAt (root ++ (h ++ '-' :: (name ++ '/' :: rest))) =
        some (root ++ hashTok ++ '-' :: (name ++ '/' :: rest), []) := by
      rw [matchAt_store hr h32 hall]
      rw [takeWhile_nl_eq_self htail, dropWhile_nl_eq_nil htail]
      obtain ⟨x, xs, hxx⟩ :
          ∃ x xs, name ++ '/' :: rest = x :: xs := by
        cases hnm : name ++ '/' :: rest with
        | nil => exact absurd hnm (by simp)
        | cons x xs => exact ⟨x, xs, rfl⟩
      rw [hxx]
    have hlst : pyLstrip (root ++ (h ++ '-' :: (name ++ '/' :: rest))) =
        root ++ (h ++ '-' :: (name ++ '/' :: rest)) :=
      pyLstrip_no_slash (by rw [roots_append_head hr]; simp)
    have hne : root ++ (h ++ '-' :: (name ++ '/' :: rest)) ≠ [] := by
      intro hcon
      have := roots_append_head hr (h ++ '-' :: (name ++ '/' :: rest))
      rw [hcon] at this
      simp at this
    rw [normalize_path, hlst, pySub_single_match hne hm]
    simp [List.append_assoc]
  · intro p hseg
    rw [normalize_path]
    exact subScanF_id_of_hasSeg_false _ _ hseg

/-- Witness for the amended C6 at a concrete store path and at a concrete
store-segment-free path. -/
theorem normalize_path_store_segment_witness :
    normalize_path (rootPlain ++ (ha ++ '-' :: (strL "p" ++ '/' :: strL "bin/x"))) =
      rootPlain ++ (hashTok ++ '-' :: (strL "p" ++ '/' :: strL "bin/x")) ∧
    normalize_path (strL "/etc/passwd") = pyLstrip (strL "/etc/passwd") :=
  ⟨normalize_path_store_segment.1 rootPlain ha (strL "p") (strL "bin/x")
      (by decide) (by decide) (by decide) (by decide) (by decide),
   normalize_path_store_segment.2 (strL "/etc/passwd") (by decide)⟩

/-! Root-occurrence counting, towards claim C3. -/

theorem rootCount_cons (c : Char) (cs : Str) :
    rootCount (c :: cs) =
      (if (stripRoot (c :: cs)).isSome then 1 else 0) + rootCount cs := rfl

theorem rootCount_zero_no_root {s : Str} (h : rootCount s = 0) :
    ∀ i, stripRoot (s.drop i) = none := by
  induction s with
  | nil => intro i; rw [List.drop_nil]; exact stripRoot_nil
  | cons c cs ih =>
    rw [rootCount_cons] at h
    have h2 : rootCount cs = 0 := Nat.eq_zero_of_add_eq_zero_left h
    have h1 : stripRoot (c :: cs) = none := by
      by_cases hs : (stripRoot (c :: cs)).isSome
      · rw [if_pos hs] at h; omega
      · exact Option.not_isSome_iff_eq_none.mp hs
    intro i
    cases i with
    | zero => exact h1
    | succ i => rw [List.drop_succ_cons]; exact ih h2 i

theorem subScanF_id_of_no_match :
    ∀ (n : Nat) (s : Str), (∀ i, matchAt (s.drop i) = none) → subScanF n s = s := by
  intro n
  induction n with
  | zero => intro s _; rfl
  | succ n ih =>
    intro s h
    cases s with
    | nil => rfl
    | cons c cs =>
      have h0 : matchAt (c :: cs) = none := by simpa using h 0
      have hrest : ∀ i, matchAt (cs.drop i) = none := by
        intro i
        simpa [List.drop_succ_cons] using h (i + 1)
      simp [subScanF, h0, ih cs hrest]

theorem rootCount_pos_of_strip :
    ∀ (t : Str) (m : Nat), (stripRoot (t.drop m)).isSome = true →
      1 ≤ rootCount t := by
  intro t
  induction t with
  | nil =>
    intro m h
    rw [List.drop_nil, stripRoot_nil] at h
    simp at h
  | cons c cs ih =>
    intro m h
    cases m with
    | zero =>
      rw [List.drop_zero] at h
      rw [rootCount_cons, if_pos h]
      omega
    | succ m =>
      rw [List.drop_succ_cons] at h
      have := ih m h
      rw [rootCount_cons]
      omega

theorem rootCount_two_of_strip_strip {q : Str} (h0 : (stripRoot q).isSome = true)
    {j : Nat} (hj : (stripRoot (q.drop (j + 1))).isSome = true) :
    2 ≤ rootCount q := by
  cases q with
  | nil => rw [stripRoot_nil] at h0; simp at h0
  | cons c cs =>
    rw [List.drop_succ_cons] at hj
    have h1 := rootCount_pos_of_strip cs j hj
    rw [rootCount_cons, if_pos h0]
    omega

theorem rootCount_append_right (pre t : Str) :
    rootCount t ≤ rootCount (pre ++ t) := by
  induction pre with
  | nil => simp
  | cons c cs ih =>
    rw [List.cons_append, rootCount_cons]
    omega

theorem rootCount_suffix_le {t1 t2 : Str} (h : t1 <:+ t2) :
    rootCount t1 ≤ rootCount t2 := by
  obtain ⟨pre, rfl⟩ := h
  exact rootCount_append_right pre t1

theorem rootCount_drop_le (t : Str) (k : Nat) :
    rootCount (t.drop k) ≤ rootCount t :=
  rootCount_suffix_le (List.drop_suffix k t)

/-- Decompose a successful Boolean-prefix test. -/
theorem prefix_decomp {a s : Str} (h : a.isPrefixOf s = true) :
    s = a ++ s.drop a.length := by
  have hp := List.prefix_iff_eq_take.mp (List.isPrefixOf_iff_prefix.mp h)
  conv_lhs => rw [← List.take_append_drop a.length s, ← hp]

/-- Invert `stripRoot`. -/
theorem stripRoot_inv {s root r1 : Str} (h : stripRoot s = some (root, r1)) :
    root ∈ roots ∧ s = root ++ r1 := by
  unfold stripRoot at h
  by_cases h1 : rootRO.isPrefixOf s
  · rw [if_pos h1] at h
    obtain ⟨rfl, rfl⟩ : rootRO = root ∧ s.drop rootRO.length = r1 := by
      simpa using h
    exact ⟨by simp [roots], prefix_decomp h1⟩
  · rw [if_neg h1] at h
    by_cases h2 : rootRW.isPrefixOf s
    · rw [if_pos h2] at h
      obtain ⟨rfl, rfl⟩ : rootRW = root ∧ s.drop rootRW.length = r1 := by
        simpa using h
      exact ⟨by simp [roots], prefix_decomp h2⟩
    · rw [if_neg h2] at h
      by_cases h3 : rootPlain.isPrefixOf s
      · rw [if_pos h3] at h
        obtain ⟨rfl, rfl⟩ : rootPlain = root ∧ s.drop rootPlain.length = r1 := by
          simpa using h
        exact ⟨by simp [roots], prefix_decomp h3⟩
      · rw [if_neg h3] at h
        exact absurd h (by simp)

/-- Invert a successful match of the store-segment pattern. -/
theorem matchAt_some_inv {s rep rem : Str} (h : matchAt s = some (rep, rem)) :
    ∃ root h0 r3, root ∈ roots ∧ s = root ++ h0 ++ '-' :: r3 ∧
      h0.length = 32 ∧ h0.all isLowerAlnum = true ∧
      r3.takeWhile (fun c => c != '\n') ≠ [] ∧
      rep = root ++ hashTok ++ '-' :: r3.takeWhile (fun c => c != '\n') ∧
      rem = r3.dropWhile (fun c => c != '\n') := by
  cases hsr : stripRoot s with
  | none => rw [matchAt_none_of_stripRoot_none hsr] at h; exact absurd h (by simp)
  | some pr =>
    obtain ⟨root, r1⟩ := pr
    obtain ⟨hroot, hs⟩ := stripRoot_inv hsr
    simp only [matchAt, hsr] at h
    by_cases hcond : (((r1.take 32).length == 32) && (r1.take 32).all isLowerAlnum) = true
    · rw [if_pos hcond] at h
      obtain ⟨hlen, hall⟩ := Bool.and_eq_true_iff.mp hcond
      have h32 : (r1.take 32).length = 32 := by simpa using hlen
      cases hd : r1.drop 32 with
      | nil => rw [hd] at h; exact absurd h (by simp)
      | cons c r3 =>
        rw [hd] at h
        by_cases hc : c = '-'
        · subst hc
          simp only at h
          cases hg : r3.takeWhile (fun c => c != '\n') with
          | nil => rw [hg] at h; exact absurd h (by simp)
          | cons g0 gs =>
            rw [hg] at h
            simp only [Option.some.injEq, Prod.mk.injEq] at h
            refine ⟨root, r1.take 32, r3, hroot, ?_, h32, hall, ?_, ?_, ?_⟩
            · rw [hs]
              conv_lhs => rw [← List.take_append_drop 32 r1, hd]
              simp [List.append_assoc]
            · rw [hg]; simp
            · rw [hg, ← h.1]
            · rw [← h.2]
        · simp [hc] at h
    · rw [if_neg hcond] at h
      exact absurd h (by simp)

/-- Any root occurrence that stands somewhere in a string makes `stripRoot`
succeed there. -/
theorem stripRoot_isSome_of_root_prefix {root2 s : Str} (h2 : root2 ∈ roots)
    (hp : root2 <+: s) : (stripRoot s).isSome = true := by
  have hb : root2.isPrefixOf s = true := List.isPrefixOf_iff_prefix.mpr hp
  rcases roots_cases h2 with rfl | rfl | rfl
  · simp [stripRoot, hb]
  · unfold stripRoot
    by_cases h1 : rootRO.isPrefixOf s
    · simp [h1]
    · simp [h1, hb]
  · unfold stripRoot
    by_cases h1 : rootRO.isPrefixOf s
    · simp [h1]
    · by_cases hw : rootRW.isPrefixOf s
      · simp [h1, hw]
      · simp [h1, hw, hb]

/-- The roots contain no uppercase `H`. -/
theorem roots_no_hash_char {root2 : Str} (h2 : root2 ∈ roots) :
    'H' ∉ root2 := by
  rcases roots_cases h2 with rfl | rfl | rfl
  · decide
  · decide
  · decide

/-- A match attempt fails when the 32 characters after the root are not all
lowercase alphanumeric. -/
theorem matchAt_none_of_all_false {s root r1 : Str}
    (hsr : stripRoot s = some (root, r1))
    (hfalse : (r1.take 32).all isLowerAlnum = false) : matchAt s = none := by
  simp [matchAt, hsr, hfalse]

/-- No position of the replaced text `root ++ HASH ++ '-' :: tail` matches
the store-segment pattern again, provided the original text
`root ++ hash ++ '-' :: tail` contained only its one leading root
occurrence. -/
theorem out_match_free {root h0 : Str} (hr : root ∈ roots)
    (h32 : h0.length = 32) (tail : Str)
    (hcount : rootCount (root ++ (h0 ++ '-' :: tail)) ≤ 1) :
    ∀ i, matchAt ((root ++ (hashTok ++ '-' :: tail)).drop i) = none := by
  intro i
  rcases Nat.eq_zero_or_pos i with rfl | hipos
  · rw [List.drop_zero]
    refine matchAt_none_of_all_false (stripRoot_append hr _) ?_
    rw [show (hashTok ++ '-' :: tail).take 32 =
      'H' :: (('A' :: 'S' :: 'H' :: '-' :: tail).take 31) from rfl]
    rw [List.all_cons, show isLowerAlnum 'H' = false from rfl]
    exact Bool.false_and _
  · by_cases hile : i ≤ root.length + 4
    · rcases roots_cases hr with rfl | rfl | rfl
      · replace hile : i ≤ 18 := by simpa [rootRO] using hile
        interval_cases i <;> rfl
      · replace hile : i ≤ 18 := by simpa [rootRW] using hile
        interval_cases i <;> rfl
      · replace hile : i ≤ 14 := by simpa [rootPlain] using hile
        interval_cases i <;> rfl
    · push_neg at hile
      have hAo : root ++ (hashTok ++ '-' :: tail) =
          (root ++ hashTok ++ ['-']) ++ tail := by simp
      have hAlen : (root ++ hashTok ++ ['-']).length = root.length + 5 := by
        simp [hashTok]
      obtain ⟨m, hm⟩ : ∃ m, i = (root ++ hashTok ++ ['-']).length + m :=
        ⟨i - (root.length + 5), by rw [hAlen]; omega⟩
      rw [hAo, hm, List.drop_append]
      cases hstrip : stripRoot (tail.drop m) with
      | none => exact matchAt_none_of_stripRoot_none hstrip
      | some pr =>
        exfalso
        have hq0 : (stripRoot (root ++ (h0 ++ '-' :: tail))).isSome = true := by
          rw [stripRoot_append hr]; rfl
        have hBq : root ++ (h0 ++ '-' :: tail) = (root ++ h0 ++ ['-']) ++ tail := by
          simp
        have hBlen : (root ++ h0 ++ ['-']).length = root.length + 33 := by
          simp [h32]
        have hdropq : (root ++ (h0 ++ '-' :: tail)).drop
            ((root.length + 32 + m) + 1) = tail.drop m := by
          rw [hBq, show (root.length + 32 + m) + 1 =
            (root ++ h0 ++ ['-']).length + m from by rw [hBlen]; omega,
            List.drop_append]
        have hj : (stripRoot ((root ++ (h0 ++ '-' :: tail)).drop
            ((root.length + 32 + m) + 1))).isSome = true := by
          rw [hdropq, hstrip]; rfl
        have h2 := rootCount_two_of_strip_strip hq0 hj
        omega

/-- Core induction for idempotence: scanning a string with at most one root
occurrence yields an output in which the pattern matches nowhere; moreover
the output is either the unchanged input or the input with its single hash
segment replaced by `HASH`. -/
theorem subScan_post :
    ∀ (n : Nat) (s : Str), s.length ≤ n → rootCount s ≤ 1 →
      (∀ i, matchAt ((subScanF n s).drop i) = none) ∧
      (subScanF n s = s ∨
        ∃ pre root h0 tail, root ∈ roots ∧ h0.length = 32 ∧
          s = pre ++ (root ++ (h0 ++ '-' :: tail)) ∧
          subScanF n s = pre ++ (root ++ (hashTok ++ '-' :: tail))) := by
  intro n
  induction n with
  | zero =>
    intro s hlen _
    have hs : s = [] := List.eq_nil_of_length_eq_zero (Nat.le_zero.mp hlen)
    subst hs
    constructor
    · intro i
      rw [show subScanF 0 ([] : Str) = [] from rfl, List.drop_nil]
      rfl
    · exact Or.inl rfl
  | succ n ih =>
    intro s hlen hcount
    cases s with
    | nil =>
      constructor
      · intro i
        rw [subScanF_nil, List.drop_nil]
        rfl
      · exact Or.inl (subScanF_nil _)
    | cons c cs =>
      cases hm : matchAt (c :: cs) with
      | some pr =>
        obtain ⟨rep, rem⟩ := pr
        obtain ⟨root, h0, r3, hroot, hseq, h32, hall, hgne, hrep, hrem⟩ :=
          matchAt_some_inv hm
        have hseq' : c :: cs = root ++ (h0 ++ '-' :: r3) :=
          hseq.trans (List.append_assoc root h0 ('-' :: r3))
        have hstep : subScanF (n + 1) (c :: cs) = rep ++ subScanF n rem := by
          simp [subScanF, hm]
        have hq0 : (stripRoot (c :: cs)).isSome = true := by
          rw [hseq', stripRoot_append hroot]; rfl
        have hrc := rootCount_cons c cs
        rw [if_pos hq0] at hrc
        have hcs : rootCount cs = 0 := by omega
        have hBr3 : c :: cs = (root ++ h0 ++ ['-']) ++ r3 := by
          rw [hseq']; simp
        have hBne : root ++ h0 ++ ['-'] ≠ [] := by simp
        obtain ⟨d, ds, hB⟩ := List.exists_cons_of_ne_nil hBne
        rw [hB, List.cons_append] at hBr3
        injection hBr3 with hch hcs'
        have hr3count : rootCount r3 = 0 :=
          Nat.le_zero.mp (hcs ▸ rootCount_suffix_le ⟨ds, hcs'.symm⟩)
        have hremcount : rootCount rem = 0 := by
          rw [hrem]
          exact Nat.le_zero.mp
            (hr3count ▸ rootCount_suffix_le (List.dropWhile_suffix _))
        have hscanrem : subScanF n rem = rem :=
          subScanF_id_of_no_match n rem (fun i =>
            matchAt_none_of_stripRoot_none (rootCount_zero_no_root hremcount i))
        have hout : subScanF (n + 1) (c :: cs) =
            root ++ (hashTok ++ '-' :: r3) := by
          rw [hstep, hscanrem, hrep, hrem]
          simp [List.append_assoc]
        have hc' : rootCount (root ++ (h0 ++ '-' :: r3)) ≤ 1 := by
          rw [← hseq']; exact hcount
        refine ⟨fun i => by rw [hout]; exact out_match_free hroot h32 r3 hc' i,
          Or.inr ⟨[], root, h0, r3, hroot, h32, by simpa using hseq',
            by simpa using hout⟩⟩
      | none =>
        have hstep : subScanF (n + 1) (c :: cs) = c :: subScanF n cs := by
          simp [subScanF, hm]
        have hcslen : cs.length ≤ n := by simpa using hlen
        have hrc := rootCount_cons c cs
        have hcscount : rootCount cs ≤ 1 := by omega
        obtain ⟨hfree, hshape⟩ := ih cs hcslen hcscount
        have hzero : matchAt (c :: subScanF n cs) = none := by
          rcases hshape with heq | ⟨pre, root, h0, tail, hroot, h32, hseq, hout⟩
          · rw [heq]; exact hm
          · rw [hout]
            apply matchAt_none_of_stripRoot_none
            cases hsr : stripRoot
                (c :: (pre ++ (root ++ (hashTok ++ '-' :: tail)))) with
            | none => rfl
            | some pr2 =>
              exfalso
              obtain ⟨root2, r2⟩ := pr2
              obtain ⟨hroot2, hdec⟩ := stripRoot_inv hsr
              have hX : c :: (pre ++ (root ++ (hashTok ++ '-' :: tail))) =
                  (c :: (pre ++ root)) ++ (hashTok ++ '-' :: tail) := by
                simp
              have htake : root2 =
                  (c :: (pre ++ (root ++ (hashTok ++ '-' :: tail)))).take
                    root2.length :=
                List.prefix_iff_eq_take.mp ⟨r2, hdec.symm⟩
              by_cases hlen2 : root2.length ≤ (c :: (pre ++ root)).length
              · rw [hX, List.take_append_of_le_length hlen2] at htake
                have hpre2q : root2 <+: c :: cs := by
                  rw [show c :: cs =
                    (c :: (pre ++ root)) ++ (h0 ++ '-' :: tail) from by
                      rw [hseq]; simp]
                  rw [List.prefix_iff_eq_take,
                    List.take_append_of_le_length hlen2]
                  exact htake
                have hq0' : (stripRoot (c :: cs)).isSome = true :=
                  stripRoot_isSome_of_root_prefix hroot2 hpre2q
                have hinner : (stripRoot ((c :: cs).drop
                    (pre.length + 1))).isSome = true := by
                  have hsplit : c :: cs =
                      (c :: pre) ++ (root ++ (h0 ++ '-' :: tail)) := by
                    rw [hseq]; simp
                  have hlp : pre.length + 1 = (c :: pre).length := by simp
                  rw [hsplit, hlp, List.drop_left, stripRoot_append hroot]
                  rfl
                have h2 := rootCount_two_of_strip_strip hq0' hinner
                omega
              · push_neg at hlen2
                rw [hX] at htake
                obtain ⟨m, hmm⟩ : ∃ m, root2.length =
                    (c :: (pre ++ root)).length + (m + 1) :=
                  ⟨root2.length - (c :: (pre ++ root)).length - 1, by omega⟩
                rw [hmm, List.take_append] at htake
                have hHmem : 'H' ∈ root2 := by
                  rw [htake]
                  refine List.mem_append.mpr (Or.inr ?_)
                  rw [show hashTok ++ '-' :: tail =
                    'H' :: ('A' :: 'S' :: 'H' :: '-' :: tail) from rfl,
                    List.take_succ_cons]
                  exact List.mem_cons_self _ _
                exact roots_no_hash_char hroot2 hHmem
        refine ⟨?_, ?_⟩
        · intro i
          cases i with
          | zero => rw [hstep, List.drop_zero]; exact hzero
          | succ i => rw [hstep, List.drop_succ_cons]; exact hfree i
        · rcases hshape with heq | ⟨pre, root, h0, tail, hroot, h32, hseq, hout⟩
          · exact Or.inl (by rw [hstep, heq])
          · exact Or.inr ⟨c :: pre, root, h0, tail, hroot, h32,
              by rw [hseq]; simp, by rw [hstep, hout]; simp⟩

/-- The substitution never introduces a leading slash. -/
theorem pySub_no_leading_slash {q : Str} (hq : q.head? ≠ some '/') :
    pyLstrip (pySub q) = pySub q := by
  apply pyLstrip_no_slash
  cases q with
  | nil => rw [show pySub [] = [] from rfl]; simp
  | cons c cs =>
    show (subScanF (c :: cs).length (c :: cs)).head? ≠ some '/'
    rw [List.length_cons]
    cases hm : matchAt (c :: cs) with
    | none =>
      rw [show subScanF (cs.length + 1) (c :: cs) =
        c :: subScanF cs.length cs from by simp [subScanF, hm]]
      simpa using hq
    | some pr =>
      obtain ⟨rep, rem⟩ := pr
      obtain ⟨root, h0, r3, hroot, hseq, h32, hall, hgne, hrep, hrem⟩ :=
        matchAt_some_inv hm
      rw [show subScanF (cs.length + 1) (c :: cs) =
        rep ++ subScanF cs.length rem from by simp [subScanF, hm]]
      rw [hrep]
      rw [show (root ++ hashTok ++ '-' ::
          r3.takeWhile (fun c => c != '\n')) ++ subScanF cs.length rem =
        root ++ (hashTok ++ '-' :: r3.takeWhile (fun c => c != '\n') ++
          subScanF cs.length rem) from by simp]
      rw [roots_append_head hroot]
      simp

/-! Claim C3. -/

/-- C3 counterexample: for a path with two store-root/hash segments a single
application of `normalize_path` rewrites only the first segment (the greedy
`(.+)` swallows the rest of the line), while a second application also
rewrites the second segment, so normalization is not idempotent. -/
theorem normalize_path_two_segments_not_idempotent :
    normalize_path (normalize_path pTwoSeg) ≠ normalize_path pTwoSeg := by
  decide

/-- C3 as amended: `normalize_path` is idempotent on every path that
contains at most one store-root occurrence (after stripping leading
slashes); with two or more store-root/hash segments a second application can
rewrite further segments. -/
theorem normalize_path_idempotent_single_segment (p : Str)
    (hcount : rootCount (pyLstrip p) ≤ 1) :
    normalize_path (normalize_path p) = normalize_path p := by
  have hhead : (pyLstrip p).head? ≠ some '/' := by
    intro hh
    have hnp := List.head?_dropWhile_not (fun c => c == '/') p
    rw [show pyLstrip p = p.dropWhile (fun c => c == '/') from rfl] at hh
    rw [hh] at hnp
    simp at hnp
  show pySub (pyLstrip (pySub (pyLstrip p))) = pySub (pyLstrip p)
  rw [pySub_no_leading_slash hhead]
  obtain ⟨hfree, -⟩ :=
    subScan_post (pyLstrip p).length (pyLstrip p) le_rfl hcount
  exact subScanF_id_of_no_match _ _ hfree

/-- Witness for the amended C3 at a concrete single-segment store path. -/
theorem normalize_path_idempotent_single_segment_witness :
    normalize_path (normalize_path (strL "nix/store/" ++ ha ++ strL "-p/x")) =
      normalize_path (strL "nix/store/" ++ ha ++ strL "-p/x") :=
  normalize_path_idempotent_single_segment
    (strL "nix/store/" ++ ha ++ strL "-p/x") (by decide)

/-! Lemmas about the matcher, towards claims C4 and C8. -/

theorem recordMatch_matching (res : FindResults) (pm : PathMatch) (n1 n2 : Str)
    (m : List (Str × Str)) :
    (recordMatch res pm n1 n2 m).matching_paths =
      res.matching_paths ++ [pm] := by
  unfold recordMatch
  by_cases h1 : n1 ≠ n2 <;> by_cases h2 : pm.state1_broken <;>
    by_cases h3 : pm.state2_broken <;>
    by_cases h4 : pm.state1_final_hash = pm.state2_final_hash <;>
    simp [h1, h2, h3, h4]

theorem recordMatch_mappings (res : FindResults) (pm : PathMatch) (n1 n2 : Str)
    (m : List (Str × Str)) :
    (recordMatch res pm n1 n2 m).store_path_mappings = m := by
  unfold recordMatch
  by_cases h1 : n1 ≠ n2 <;> by_cases h2 : pm.state1_broken <;>
    by_cases h3 : pm.state2_broken <;>
    by_cases h4 : pm.state1_final_hash = pm.state2_final_hash <;>
    simp [h1, h2, h3, h4]

theorem recordMatch_different_final (res : FindResults) (pm : PathMatch)
    (n1 n2 : Str) (m : List (Str × Str)) :
    (recordMatch res pm n1 n2 m).different_final_content =
      (if pm.state1_broken = false ∧ pm.state2_broken = false ∧
          pm.state1_final_hash ≠ pm.state2_final_hash then
        res.different_final_content ++ [pm]
      else res.different_final_content) := by
  unfold recordMatch
  by_cases h1 : n1 ≠ n2 <;> by_cases h2 : pm.state1_broken <;>
    by_cases h3 : pm.state2_broken <;>
    by_cases h4 : pm.state1_final_hash = pm.state2_final_hash <;>
    simp [h1, h2, h3, h4]

theorem recordMatch_broken_only1 (res : FindResults) (pm : PathMatch)
    (n1 n2 : Str) (m : List (Str × Str)) :
    (recordMatch res pm n1 n2 m).broken_only_in_state1 =
      (if pm.state1_broken = true ∧ pm.state2_broken = false then
        res.broken_only_in_state1 ++ [pm]
      else res.broken_only_in_state1) := by
  unfold recordMatch
  by_cases h1 : n1 ≠ n2 <;> by_cases h2 : pm.state1_broken <;>
    by_cases h3 : pm.state2_broken <;>
    by_cases h4 : pm.state1_final_hash = pm.state2_final_hash <;>
    simp [h1, h2, h3, h4]

theorem recordMatch_broken_only2 (res : FindResults) (pm : PathMatch)
    (n1 n2 : Str) (m : List (Str × Str)) :
    (recordMatch res pm n1 n2 m).broken_only_in_state2 =
      (if pm.state1_broken = false ∧ pm.state2_broken = true then
        res.broken_only_in_state2 ++ [pm]
      else res.broken_only_in_state2) := by
  unfold recordMatch
  by_cases h1 : n1 ≠ n2 <;> by_cases h2 : pm.state1_broken <;>
    by_cases h3 : pm.state2_broken <;>
    by_cases h4 : pm.state1_final_hash = pm.state2_final_hash <;>
    simp [h1, h2, h3, h4]

theorem recordMatch_broken_in_both (res : FindResults) (pm : PathMatch)
    (n1 n2 : Str) (m : List (Str × Str)) :
    (recordMatch res pm n1 n2 m).broken_in_both =
      (if pm.state1_broken = true ∧ pm.state2_broken = true then
        res.broken_in_both ++ [pm]
      else res.broken_in_both) := by
  unfold recordMatch
  by_cases h1 : n1 ≠ n2 <;> by_cases h2 : pm.state1_broken <;>
    by_cases h3 : pm.state2_broken <;>
    by_cases h4 : pm.state1_final_hash = pm.state2_final_hash <;>
    simp [h1, h2, h3, h4]

theorem recordMatch_identical (res : FindResults) (pm : PathMatch)
    (n1 n2 : Str) (m : List (Str × Str)) :
    (recordMatch res pm n1 n2 m).identical_final_content =
      (if pm.state1_broken = false ∧ pm.state2_broken = false ∧
          pm.state1_final_hash = pm.state2_final_hash then
        res.identical_final_content ++ [pm]
      else res.identical_final_content) := by
  unfold recordMatch
  by_cases h1 : n1 ≠ n2 <;> by_cases h2 : pm.state1_broken <;>
    by_cases h3 : pm.state2_broken <;>
    by_cases h4 : pm.state1_final_hash = pm.state2_final_hash <;>
    simp [h1, h2, h3, h4]

/-- Lookup distributes over list append. -/
theorem alookup_append {α : Type} (l1 l2 : List (Str × α)) (k : Str) :
    alookup (l1 ++ l2) k =
      (match alookup l1 k with
       | some v => some v
       | none => alookup l2 k) := by
  induction l1 with
  | nil => rfl
  | cons hd rest ih =>
    obtain ⟨k0, v0⟩ := hd
    by_cases hk : k0 = k
    · subst hk
      rw [List.cons_append, alookup_cons_self, alookup_cons_self]
    · rw [List.cons_append, alookup_cons_ne hk, alookup_cons_ne hk, ih]

/-- A pair of a duplicate-free dictionary is found by lookup. -/
theorem alookup_of_mem_nodup {α : Type} {l : List (Str × α)} {k : Str} {v : α}
    (hnd : (l.map Prod.fst).Nodup) (hmem : (k, v) ∈ l) :
    alookup l k = some v := by
  induction l with
  | nil => exact absurd hmem (List.not_mem_nil _)
  | cons hd rest ih =>
    obtain ⟨k0, v0⟩ := hd
    simp only [List.map_cons, List.nodup_cons] at hnd
    rcases List.mem_cons.mp hmem with heq | hmem'
    · obtain ⟨rfl, rfl⟩ := Prod.mk.injEq .. ▸ heq
      · exact alookup_cons_self
    · have hk : k0 ≠ k := by
        rintro rfl
        exact hnd.1 (List.mem_map_of_mem Prod.fst hmem')
      rw [alookup_cons_ne hk]
      exact ih hnd.2 hmem'

/-! Claim C4 counterexample and claim C8 counterexample. -/

/-- C4 counterexample: comparing the snapshot `snapColl` against itself —
two symlinks that share a normalized path but resolve to files with
different hashes — classifies one of the two symlinks into
`different_final_content`, because the index matches it against the other
symlink (the first index hit), not against itself.  So identical snapshots
do not make the `different_final_content` bucket empty. -/
theorem identical_snapshots_different_content_nonempty :
    (find_equivalent_symlinks snapColl snapColl).toOption.map
      (fun r => (r.different_final_content.length,
        r.identical_final_content.length, r.broken_in_both.length)) =
      some (1, 1, 0) := by
  decide

/-- C8 counterexample: two matched pairs whose snapshot-1 paths lie under the
same store path but whose snapshot-2 store paths differ (`b...-p` versus
`c...-p`) accumulate only one observation — the first pair's — because the
mapping dictionary is only written when the source store path is not yet a
key.  The second pair's observation `(a...-p, c...-p)` is dropped, so the
mappings do not contain one observation per matched pair. -/
theorem store_mapping_only_first_pair :
    (find_equivalent_symlinks snapMapA snapMapB).toOption.map
      (fun r => (r.matching_paths.length, r.store_path_mappings)) =
      some (2, [(strL "nix/store/" ++ ha ++ strL "-p",
        strL "nix/store/" ++ hb ++ strL "-p")]) := by
  decide


/-- Appending one matched pair and performing the first-wins mappings update
preserves the mapping/match relation. -/
theorem mappingsInv_record {res : FindResults} {pm : PathMatch} {n1 n2 : Str}
    {M : List (Str × Str)} (hinv : MappingsInv res)
    (hM : (M = res.store_path_mappings ∧
            ((storeSearch pm.state1_path).isSome = false ∨
             (storeSearch pm.state2_path).isSome = false ∨
             ∃ sp t, storeSearch pm.state1_path = some sp ∧
               alookup res.store_path_mappings sp = some t)) ∨
          (∃ sp1 sp2, storeSearch pm.state1_path = some sp1 ∧
            storeSearch pm.state2_path = some sp2 ∧
            alookup res.store_path_mappings sp1 = none ∧
            M = res.store_path_mappings ++ [(sp1, sp2)])) :
    MappingsInv (recordMatch res pm n1 n2 M) := by
  constructor
  · intro sp t hsp
    rw [recordMatch_mappings] at hsp
    rw [recordMatch_matching]
    rcases hM with ⟨rfl, _⟩ | ⟨sp1, sp2, hs1, hs2, hold, rfl⟩
    · obtain ⟨pm', hmem, hp1, hp2⟩ := hinv.1 sp t hsp
      exact ⟨pm', List.mem_append_left _ hmem, hp1, hp2⟩
    · cases holdsp : alookup res.store_path_mappings sp with
      | some v =>
        simp only [alookup_append, holdsp] at hsp
        obtain rfl : v = t := by simpa using hsp
        obtain ⟨pm', hmem, hp1, hp2⟩ := hinv.1 sp v holdsp
        exact ⟨pm', List.mem_append_left _ hmem, hp1, hp2⟩
      | none =>
        simp only [alookup_append, holdsp] at hsp
        by_cases hspe : sp1 = sp
        · subst hspe
          rw [alookup_cons_self] at hsp
          obtain rfl : sp2 = t := by simpa using hsp
          exact ⟨pm, List.mem_append_right _ (List.mem_singleton.mpr rfl),
            hs1, hs2⟩
        · rw [alookup_cons_ne hspe] at hsp
          exact absurd hsp (by simp [alookup])
  · intro pm' hmem sp hsp hss
    rw [recordMatch_matching] at hmem
    rw [recordMatch_mappings]
    rcases List.mem_append.mp hmem with hmem | hnew
    · obtain ⟨t, ht⟩ := hinv.2 pm' hmem sp hsp hss
      rcases hM with ⟨rfl, _⟩ | ⟨sp1, sp2, hs1, hs2, hold, rfl⟩
      · exact ⟨t, ht⟩
      · exact ⟨t, by simp only [alookup_append, ht]⟩
    · obtain rfl : pm' = pm := List.mem_singleton.mp hnew
      rcases hM with ⟨rfl, hside⟩ | ⟨sp1, sp2, hs1, hs2, hold, rfl⟩
      · rcases hside with hf1 | hf2 | ⟨sp0, t0, hs0, ht0⟩
        · rw [hsp] at hf1
          simp at hf1
        · rw [hss] at hf2
          simp at hf2
        · obtain rfl : sp0 = sp := by
            rw [hs0] at hsp
            exact Option.some.inj hsp
          exact ⟨t0, ht0⟩
      · obtain rfl : sp1 = sp := by
          rw [hs1] at hsp
          exact Option.some.inj hsp
        exact ⟨sp2, by simp only [alookup_append, hold, alookup_cons_self]⟩

/-- One matcher iteration preserves the mapping/match relation. -/
theorem processOne_inv_c8 {s1 s2 : Snapshot} {idx2 : PathIndex}
    {st st' : MState} {pr : Str × SymRec}
    (h : processOne s1 s2 idx2 st pr = .ok st')
    (hinv : MappingsInv st.res) : MappingsInv st'.res := by
  unfold processOne at h
  cases hc : (indexGet idx2 (normalize_path pr.1)).filterMap
      (fun p => (alookup s2.symlinks p).map (fun sr => (p, sr))) with
  | nil =>
    simp only [hc] at h
    obtain rfl : st = st' := by simpa using h
    exact hinv
  | cons hd rest =>
    obtain ⟨path2, sr2⟩ := hd
    simp only [hc] at h
    cases hn1 : normTargetE pr.2.target with
    | error e => simp [hn1] at h
    | ok n1 =>
      cases hn2 : normTargetE sr2.target with
      | error e => simp [hn1, hn2] at h
      | ok n2 =>
        cases hr1 : resolve_symlink_chain pr.1 s1.symlinks s1.files st.cache1 with
        | error e => simp [hn1, hn2, hr1] at h
        | ok rc1 =>
          obtain ⟨r1, c1⟩ := rc1
          cases hr2 : resolve_symlink_chain path2 s2.symlinks s2.files
              st.cache2 with
          | error e => simp [hn1, hn2, hr1, hr2] at h
          | ok rc2 =>
            obtain ⟨r2, c2⟩ := rc2
            simp only [hn1, hn2, hr1, hr2] at h
            have h2 := Except.ok.inj h
            subst h2
            cases hs1 : storeSearch pr.1 with
            | none =>
              refine mappingsInv_record hinv (Or.inl ⟨?_, Or.inl ?_⟩)
              · simp only [hs1]
              · simp only [hs1]
                rfl
            | some sp1 =>
              cases hs2 : storeSearch path2 with
              | none =>
                refine mappingsInv_record hinv (Or.inl ⟨?_, Or.inr (Or.inl ?_)⟩)
                · simp only [hs1, hs2]
                · simp only [hs2]
                  rfl
              | some sp2 =>
                cases hold : alookup st.res.store_path_mappings sp1 with
                | some t0 =>
                  refine mappingsInv_record hinv
                    (Or.inl ⟨?_, Or.inr (Or.inr ⟨sp1, t0, hs1, hold⟩)⟩)
                  simp only [hs1, hs2, hold]
                | none =>
                  refine mappingsInv_record hinv
                    (Or.inr ⟨sp1, sp2, hs1, hs2, hold, ?_⟩)
                  simp only [hs1, hs2, hold]

/-- The matcher's fold preserves the mapping/match relation. -/
theorem foldlM_inv_c8 (s1 s2 : Snapshot) (idx2 : PathIndex) :
    ∀ (l : List (Str × SymRec)) (st st' : MState),
      List.foldlM (processOne s1 s2 idx2) st l = .ok st' →
      MappingsInv st.res → MappingsInv st'.res := by
  intro l
  induction l with
  | nil =>
    intro st st' h hinv
    obtain rfl : st = st' := by simpa [pure, Except.pure] using h
    exact hinv
  | cons pr rest ih =>
    intro st st' h hinv
    rw [List.foldlM_cons] at h
    cases hp : processOne s1 s2 idx2 st pr with
    | error e =>
      rw [hp] at h
      simp [Bind.bind, Except.bind] at h
    | ok st1 =>
      rw [hp] at h
      exact ih st1 st' (by simpa [Bind.bind, Except.bind] using h)
        (processOne_inv_c8 hp hinv)

/-! Claim C8. -/

/-- C8 as amended: every entry of the accumulated store-path mappings comes
from some matched pair whose two paths carry those store segments, and every
matched pair whose two paths both contain a recognisable store segment has
its snapshot-1 store path present as a key of the mappings — but only the
first matched pair per snapshot-1 store path contributes its observation;
later pairs with the same source store path are ignored. -/
theorem store_mappings_first_per_source (s1 s2 : Snapshot) (res : FindResults)
    (h : find_equivalent_symlinks s1 s2 = .ok res) :
    (∀ sp t, alookup res.store_path_mappings sp = some t →
      ∃ pm, pm ∈ res.matching_paths ∧ storeSearch pm.state1_path = some sp ∧
        storeSearch pm.state2_path = some t) ∧
    (∀ pm, pm ∈ res.matching_paths → ∀ sp,
      storeSearch pm.state1_path = some sp →
      (storeSearch pm.state2_path).isSome = true →
      ∃ t, alookup res.store_path_mappings sp = some t) := by
  unfold find_equivalent_symlinks at h
  cases hf : List.foldlM
      (processOne s1 s2 (build_normalized_path_index (allPaths2 s2)))
      initMState s1.symlinks with
  | error e =>
    simp only [hf, Except.map] at h
    exact Except.noConfusion h
  | ok stf =>
    simp only [hf, Except.map] at h
    obtain rfl : stf.res = res := by simpa using h
    have hinit : MappingsInv initMState.res := by
      constructor
      · intro sp t hsp
        simp [initMState, alookup] at hsp
      · intro pm hmem
        simp [initMState] at hmem
    exact foldlM_inv_c8 s1 s2 _ s1.symlinks initMState stf hf hinit

/-- Witness for the amended C8 at the concrete two-pair run: the single
accumulated mapping is explained by a matched pair carrying exactly those
store segments. -/
theorem store_mappings_first_per_source_witness :
    ∃ res pm, find_equivalent_symlinks snapMapA snapMapB = .ok res ∧
      pm ∈ res.matching_paths ∧
      storeSearch pm.state1_path = some (strL "nix/store/" ++ ha ++ strL "-p") ∧
      storeSearch pm.state2_path = some (strL "nix/store/" ++ hb ++ strL "-p") := by
  cases hf : find_equivalent_symlinks snapMapA snapMapB with
  | error e =>
    exfalso
    have hsome : (find_equivalent_symlinks snapMapA snapMapB).toOption.isSome =
        true := by decide
    rw [hf] at hsome
    simp [Except.toOption] at hsome
  | ok res =>
    have hmaps : res.store_path_mappings =
        [(strL "nix/store/" ++ ha ++ strL "-p",
          strL "nix/store/" ++ hb ++ strL "-p")] := by
      have hmap : (find_equivalent_symlinks snapMapA snapMapB).toOption.map
          (fun r => r.store_path_mappings) =
          some [(strL "nix/store/" ++ ha ++ strL "-p",
            strL "nix/store/" ++ hb ++ strL "-p")] := by decide
      rw [hf] at hmap
      simpa [Except.toOption] using hmap
    obtain ⟨pm, hmem, hs1, hs2⟩ :=
      (store_mappings_first_per_source snapMapA snapMapB res hf).1
        (strL "nix/store/" ++ ha ++ strL "-p")
        (strL "nix/store/" ++ hb ++ strL "-p")
        (by rw [hmaps]; exact alookup_cons_self)
    exact ⟨res, pm, rfl, hmem, hs1, hs2⟩

/-- Bucket lookup after a `cons` at its own key. -/
theorem indexGet_cons_self (k : Str) (ps : List Str) (rest : PathIndex) :
    indexGet ((k, ps) :: rest) k = ps := by
  unfold indexGet
  rw [alookup_cons_self]
  rfl

/-- Bucket lookup after a `cons` at another key. -/
theorem indexGet_cons_ne {k k2 : Str} (h : k ≠ k2) (ps : List Str)
    (rest : PathIndex) : indexGet ((k, ps) :: rest) k2 = indexGet rest k2 := by
  unfold indexGet
  rw [alookup_cons_ne h]

/-- `indexInsert` extends exactly the bucket of its key. -/
theorem indexGet_insert (idx : PathIndex) (key p key2 : Str) :
    indexGet (indexInsert idx key p) key2 =
      if key = key2 then indexGet idx key2 ++ [p] else indexGet idx key2 := by
  induction idx with
  | nil =>
    simp only [indexInsert]
    by_cases hk : key = key2
    · subst hk
      rw [if_pos rfl, indexGet_cons_self]
      rfl
    · rw [if_neg hk, indexGet_cons_ne hk]
  | cons hd rest ih =>
    obtain ⟨k0, ps⟩ := hd
    simp only [indexInsert]
    by_cases h0 : k0 = key
    · subst h0
      rw [if_pos rfl]
      by_cases hk2 : k0 = key2
      · subst hk2
        rw [if_pos rfl, indexGet_cons_self, indexGet_cons_self]
      · rw [if_neg hk2, indexGet_cons_ne hk2, indexGet_cons_ne hk2]
    · rw [if_neg h0]
      by_cases hk2 : k0 = key2
      · subst hk2
        rw [indexGet_cons_self, if_neg (fun h => h0 h.symm), indexGet_cons_self]
      · rw [indexGet_cons_ne hk2, indexGet_cons_ne hk2]
        exact ih

/-- The bucket of `key` after folding the index builder over `l` starting from
an arbitrary index. -/
theorem indexGet_foldl (key : Str) :
    ∀ (l : List Str) (idx : PathIndex),
      indexGet (l.foldl (fun idx p => indexInsert idx (normalize_path p) p) idx)
          key =
        indexGet idx key ++ l.filter (fun p => normalize_path p == key) := by
  intro l
  induction l with
  | nil => intro idx; simp
  | cons p l ih =>
    intro idx
    rw [List.foldl_cons, ih, indexGet_insert]
    by_cases hk : normalize_path p = key
    · rw [if_pos hk]
      simp [List.filter_cons, hk]
    · rw [if_neg hk]
      simp [List.filter_cons, hk]

/-- The bucket of `key` in the built index is the sublist of the inserted
paths whose normalized form is `key`. -/
theorem indexGet_build (l : List Str) (key : Str) :
    indexGet (build_normalized_path_index l) key =
      l.filter (fun p => normalize_path p == key) := by
  unfold build_normalized_path_index
  rw [indexGet_foldl key l []]
  rfl

/-- Membership through the set-accumulation fold. -/
theorem mem_foldl_insertOnce (a : Str) :
    ∀ (l : List Str) (acc : List Str),
      a ∈ l.foldl insertOnce acc ↔ a ∈ acc ∨ a ∈ l := by
  intro l
  induction l with
  | nil => intro acc; simp
  | cons x xs ih =>
    intro acc
    rw [List.foldl_cons, ih]
    unfold insertOnce
    by_cases hx : x ∈ acc
    · rw [if_pos hx]
      constructor
      · rintro (h | h)
        · exact Or.inl h
        · exact Or.inr (List.mem_cons_of_mem _ h)
      · rintro (h | h)
        · exact Or.inl h
        · rcases List.mem_cons.mp h with rfl | h
          · exact Or.inl hx
          · exact Or.inr h
    · rw [if_neg hx]
      simp [List.mem_append, List.mem_cons, or_assoc]

/-- `dedupFirst` keeps exactly the members of its input. -/
theorem mem_dedupFirst {l : List Str} {a : Str} :
    a ∈ dedupFirst l ↔ a ∈ l := by
  unfold dedupFirst
  rw [mem_foldl_insertOnce]
  simp

/-- The set-accumulation fold preserves duplicate-freedom. -/
theorem nodup_foldl_insertOnce :
    ∀ (l : List Str) (acc : List Str),
      acc.Nodup → (l.foldl insertOnce acc).Nodup := by
  intro l
  induction l with
  | nil => intro acc h; exact h
  | cons x xs ih =>
    intro acc h
    rw [List.foldl_cons]
    refine ih _ ?_
    unfold insertOnce
    by_cases hx : x ∈ acc
    · rw [if_pos hx]
      exact h
    · rw [if_neg hx]
      rw [List.nodup_append]
      exact ⟨h, List.nodup_singleton x,
        fun b hb hbx => hx (by rwa [List.mem_singleton.mp hbx] at hb)⟩

/-- `dedupFirst` yields a duplicate-free list. -/
theorem dedupFirst_nodup (l : List Str) : (dedupFirst l).Nodup :=
  nodup_foldl_insertOnce l [] List.nodup_nil

/-- The candidate path set of a snapshot is duplicate-free. -/
theorem allPaths2_nodup (s : Snapshot) : (allPaths2 s).Nodup :=
  dedupFirst_nodup _

/-- Every symlink key of a snapshot is in its candidate path set. -/
theorem mem_allPaths2_of_symlink {s : Snapshot} {pr : Str × SymRec}
    (h : pr ∈ s.symlinks) : pr.1 ∈ allPaths2 s := by
  unfold allPaths2
  rw [mem_dedupFirst]
  exact List.mem_append_left _ (List.mem_map_of_mem Prod.fst h)

/-- Filtering a duplicate-free list whose only element satisfying the
predicate is `a` returns exactly `[a]`. -/
theorem filter_eq_singleton {a : Str} {f : Str → Bool} (hfa : f a = true) :
    ∀ l : List Str, l.Nodup → a ∈ l →
      (∀ x ∈ l, f x = true → x = a) → l.filter f = [a] := by
  intro l
  induction l with
  | nil =>
    intro _ hmem _
    exact absurd hmem (List.not_mem_nil _)
  | cons x xs ih =>
    intro hnd hmem huniq
    rw [List.nodup_cons] at hnd
    rw [List.filter_cons]
    rcases List.mem_cons.mp hmem with rfl | hmem2
    · rw [if_pos hfa]
      have hnil : xs.filter f = [] := by
        rw [List.filter_eq_nil_iff]
        intro b hb hfb
        exact hnd.1 ((huniq b (List.mem_cons_of_mem _ hb) hfb) ▸ hb)
      rw [hnil]
    · have hfx : f x = false := by
        cases hx : f x with
        | false => rfl
        | true =>
          exact absurd hmem2
            ((huniq x (List.mem_cons_self _ _) hx) ▸ hnd.1)
      rw [if_neg (by simp [hfx])]
      exact ih hnd.2 hmem2 (fun b hb => huniq b (List.mem_cons_of_mem _ hb))

/-- A safe target value normalizes without raising. -/
theorem normTargetE_ok {t : PyTarget} (h : targetSafe t = true) :
    ∃ n, normTargetE t = .ok n := by
  cases t with
  | tnone => exact ⟨_, rfl⟩
  | tstr s => exact ⟨_, rfl⟩
  | tother b =>
    cases b with
    | false => exact ⟨_, rfl⟩
    | true => simp [targetSafe] at h

/-- When no symlink target is a truthy non-string, `resolve_symlink_chain`
returns a result for every start path and cache. -/
theorem resolve_total {sl : Symtab} {fl : Filetab}
    (hsafe : ∀ q ∈ sl, targetSafe q.2.target = true) (p : Str) (c : Cache) :
    ∃ r c2, resolve_symlink_chain p sl fl c = .ok (r, c2) := by
  cases hc : alookup c p with
  | some r =>
    exact ⟨r, c, by unfold resolve_symlink_chain; rw [hc]⟩
  | none =>
    obtain ⟨r, hr⟩ := resolveGo_total sl fl hsafe 20 p []
    exact ⟨r, (p, r) :: c, by unfold resolve_symlink_chain; rw [hc, hr]⟩

/-- Recording a self-matched pair (both sides the same resolution result)
leaves the difference and one-sided buckets unchanged and grows the
identical/broken-in-both total by one. -/
theorem recordMatch_self_buckets (res : FindResults) (t : PyTarget) (r : RRes)
    (p1 n : Str) (M : List (Str × Str)) :
    (recordMatch res ⟨p1, p1, t, t, r.final_path, r.final_path, r.is_broken,
        r.is_broken, r.file_hash, r.file_hash, r.status, r.status⟩ n n
        M).different_final_content = res.different_final_content ∧
    (recordMatch res ⟨p1, p1, t, t, r.final_path, r.final_path, r.is_broken,
        r.is_broken, r.file_hash, r.file_hash, r.status, r.status⟩ n n
        M).broken_only_in_state1 = res.broken_only_in_state1 ∧
    (recordMatch res ⟨p1, p1, t, t, r.final_path, r.final_path, r.is_broken,
        r.is_broken, r.file_hash, r.file_hash, r.status, r.status⟩ n n
        M).broken_only_in_state2 = res.broken_only_in_state2 ∧
    (recordMatch res ⟨p1, p1, t, t, r.final_path, r.final_path, r.is_broken,
        r.is_broken, r.file_hash, r.file_hash, r.status, r.status⟩ n n
        M).identical_final_content.length +
      (recordMatch res ⟨p1, p1, t, t, r.final_path, r.final_path, r.is_broken,
        r.is_broken, r.file_hash, r.file_hash, r.status, r.status⟩ n n
        M).broken_in_both.length =
      res.identical_final_content.length + res.broken_in_both.length + 1 := by
  refine ⟨?_, ?_, ?_, ?_⟩
  · rw [recordMatch_different_final, if_neg]
    rintro ⟨h1, h2, h3⟩
    exact (h3 : r.file_hash ≠ r.file_hash) rfl
  · rw [recordMatch_broken_only1, if_neg]
    rintro ⟨h1, h2⟩
    exact Bool.noConfusion
      ((h1 : r.is_broken = true).symm.trans (h2 : r.is_broken = false))
  · rw [recordMatch_broken_only2, if_neg]
    rintro ⟨h1, h2⟩
    exact Bool.noConfusion
      ((h2 : r.is_broken = true).symm.trans (h1 : r.is_broken = false))
  · rw [recordMatch_identical, recordMatch_broken_in_both]
    cases hb : r.is_broken with
    | false =>
      rw [if_pos ⟨rfl, rfl, rfl⟩, if_neg]
      · simp only [List.length_append, List.length_singleton]
        omega
      · rintro ⟨h1, h2⟩
        exact Bool.noConfusion (h1 : false = true)
    | true =>
      rw [if_neg, if_pos ⟨rfl, rfl⟩]
      · simp only [List.length_append, List.length_singleton]
        omega
      · rintro ⟨h1, h2, h3⟩
        exact Bool.noConfusion (h1 : true = false)

/-- One matcher iteration of a snapshot compared with itself: the symlink is
matched against itself, both resolutions coincide, and the pair lands in
`identical_final_content` or `broken_in_both`. -/
theorem processOne_self {s : Snapshot} {st : MState} {pr : Str × SymRec}
    (hnd : (s.symlinks.map Prod.fst).Nodup)
    (hsafe : ∀ q ∈ s.symlinks, targetSafe q.2.target = true)
    (hinj : ∀ p ∈ allPaths2 s, ∀ q ∈ allPaths2 s,
      normalize_path p = normalize_path q → p = q)
    (hpr : pr ∈ s.symlinks) (hcache : st.cache1 = st.cache2) :
    ∃ st2, processOne s s (build_normalized_path_index (allPaths2 s)) st pr =
        .ok st2 ∧
      st2.cache1 = st2.cache2 ∧
      st2.res.different_final_content = st.res.different_final_content ∧
      st2.res.broken_only_in_state1 = st.res.broken_only_in_state1 ∧
      st2.res.broken_only_in_state2 = st.res.broken_only_in_state2 ∧
      st2.res.identical_final_content.length + st2.res.broken_in_both.length =
        st.res.identical_final_content.length +
          st.res.broken_in_both.length + 1 := by
  have hpr1 : pr.1 ∈ allPaths2 s := mem_allPaths2_of_symlink hpr
  have halook : alookup s.symlinks pr.1 = some pr.2 :=
    alookup_of_mem_nodup hnd hpr
  have hbucket : indexGet (build_normalized_path_index (allPaths2 s))
      (normalize_path pr.1) = [pr.1] := by
    rw [indexGet_build]
    refine filter_eq_singleton (by simp) (allPaths2 s) (allPaths2_nodup s)
      hpr1 ?_
    intro x hx hfx
    exact hinj x hx pr.1 hpr1 (by simpa using hfx)
  have hcands : (indexGet (build_normalized_path_index (allPaths2 s))
        (normalize_path pr.1)).filterMap
      (fun p => (alookup s.symlinks p).map (fun sr => (p, sr))) =
      [(pr.1, pr.2)] := by
    rw [hbucket]
    simp [halook]
  obtain ⟨n, hn⟩ := normTargetE_ok (hsafe pr hpr)
  obtain ⟨r, c2, hr⟩ := resolve_total hsafe pr.1 st.cache1
  have hr2 : resolve_symlink_chain pr.1 s.symlinks s.files st.cache2 =
      .ok (r, c2) := by
    rw [← hcache]
    exact hr
  cases hss : storeSearch pr.1 with
  | none =>
    have hstep : processOne s s (build_normalized_path_index (allPaths2 s))
        st pr = .ok ⟨recordMatch st.res
          ⟨pr.1, pr.1, pr.2.target, pr.2.target, r.final_path, r.final_path,
            r.is_broken, r.is_broken, r.file_hash, r.file_hash, r.status,
            r.status⟩ n n st.res.store_path_mappings, c2, c2⟩ := by
      unfold processOne
      simp only [hcands, hss, hn, hr, hr2]
    obtain ⟨hd, h1, h2, hsum⟩ := recordMatch_self_buckets st.res pr.2.target r
      pr.1 n st.res.store_path_mappings
    exact ⟨_, hstep, rfl, hd, h1, h2, hsum⟩
  | some sp =>
    cases hml : alookup st.res.store_path_mappings sp with
    | none =>
      have hstep : processOne s s (build_normalized_path_index (allPaths2 s))
          st pr = .ok ⟨recordMatch st.res
            ⟨pr.1, pr.1, pr.2.target, pr.2.target, r.final_path, r.final_path,
              r.is_broken, r.is_broken, r.file_hash, r.file_hash, r.status,
              r.status⟩ n n (st.res.store_path_mappings ++ [(sp, sp)]),
            c2, c2⟩ := by
        unfold processOne
        simp only [hcands, hss, hml, hn, hr, hr2]
      obtain ⟨hd, h1, h2, hsum⟩ := recordMatch_self_buckets st.res pr.2.target
        r pr.1 n (st.res.store_path_mappings ++ [(sp, sp)])
      exact ⟨_, hstep, rfl, hd, h1, h2, hsum⟩
    | some t0 =>
      have hstep : processOne s s (build_normalized_path_index (allPaths2 s))
          st pr = .ok ⟨recordMatch st.res
            ⟨pr.1, pr.1, pr.2.target, pr.2.target, r.final_path, r.final_path,
              r.is_broken, r.is_broken, r.file_hash, r.file_hash, r.status,
              r.status⟩ n n st.res.store_path_mappings, c2, c2⟩ := by
        unfold processOne
        simp only [hcands, hss, hml, hn, hr, hr2]
      obtain ⟨hd, h1, h2, hsum⟩ := recordMatch_self_buckets st.res pr.2.target
        r pr.1 n st.res.store_path_mappings
      exact ⟨_, hstep, rfl, hd, h1, h2, hsum⟩

/-- The matcher's fold over a snapshot compared with itself keeps the caches
equal, never fills the difference or one-sided buckets, and classifies every
processed symlink as identical or broken-in-both. -/
theorem foldlM_identical (s : Snapshot)
    (hnd : (s.symlinks.map Prod.fst).Nodup)
    (hsafe : ∀ q ∈ s.symlinks, targetSafe q.2.target = true)
    (hinj : ∀ p ∈ allPaths2 s, ∀ q ∈ allPaths2 s,
      normalize_path p = normalize_path q → p = q) :
    ∀ l : List (Str × SymRec), (∀ q ∈ l, q ∈ s.symlinks) →
      ∀ st : MState, st.cache1 = st.cache2 →
      ∃ st2, List.foldlM
          (processOne s s (build_normalized_path_index (allPaths2 s))) st l =
          .ok st2 ∧
        st2.cache1 = st2.cache2 ∧
        st2.res.different_final_content = st.res.different_final_content ∧
        st2.res.broken_only_in_state1 = st.res.broken_only_in_state1 ∧
        st2.res.broken_only_in_state2 = st.res.broken_only_in_state2 ∧
        st2.res.identical_final_content.length +
            st2.res.broken_in_both.length =
          st.res.identical_final_content.length +
            st.res.broken_in_both.length + l.length := by
  intro l
  induction l with
  | nil =>
    intro _ st hcache
    exact ⟨st, rfl, hcache, rfl, rfl, rfl, by simp⟩
  | cons pr rest ih =>
    intro hl st hcache
    obtain ⟨st1, hstep, hc1, hd1, hb11, hb21, hs1⟩ :=
      processOne_self hnd hsafe hinj (hl pr (List.mem_cons_self _ _)) hcache
    obtain ⟨st2, hfold, hc2, hd2, hb12, hb22, hs2⟩ :=
      ih (fun q hq => hl q (List.mem_cons_of_mem _ hq)) st1 hc1
    refine ⟨st2, ?_, hc2, ?_, ?_, ?_, ?_⟩
    · rw [List.foldlM_cons, hstep]
      exact hfold
    · rw [hd2, hd1]
    · rw [hb12, hb11]
    · rw [hb22, hb21]
    · rw [List.length_cons]
      omega

/-! Claim C4. -/

/-- C4 as amended: when the symlink keys are duplicate-free, every target is
a string or falsy, and no two distinct candidate paths share a normalized
path, comparing a snapshot with itself raises nothing, leaves
`different_final_content` and both one-sided broken buckets empty, and
classifies every symlink as identical-final-content or broken-in-both; with
normalized-path collisions a symlink can be matched against a different path
and land in `different_final_content`. -/
theorem find_equivalent_identical_snapshots (s : Snapshot)
    (hnd : (s.symlinks.map Prod.fst).Nodup)
    (hsafe : ∀ q ∈ s.symlinks, targetSafe q.2.target = true)
    (hinj : ∀ p ∈ allPaths2 s, ∀ q ∈ allPaths2 s,
      normalize_path p = normalize_path q → p = q) :
    ∃ res, find_equivalent_symlinks s s = .ok res ∧
      res.different_final_content = [] ∧
      res.broken_only_in_state1 = [] ∧
      res.broken_only_in_state2 = [] ∧
      res.identical_final_content.length + res.broken_in_both.length =
        s.symlinks.length := by
  obtain ⟨st2, hfold, _, hd, hb1, hb2, hsum⟩ :=
    foldlM_identical s hnd hsafe hinj s.symlinks (fun q hq => hq)
      initMState rfl
  refine ⟨st2.res, ?_, ?_, ?_, ?_, ?_⟩
  · unfold find_equivalent_symlinks
    simp only [hfold, Except.map]
  · rw [hd]
    rfl
  · rw [hb1]
    rfl
  · rw [hb2]
    rfl
  · rw [hsum]
    simp [initMState]

/-- Witness for the amended C4 at the concrete collision-free snapshot: one
symlink resolves to a file (identical content), the other has a null target
(broken in both), and nothing lands in the difference buckets. -/
theorem find_equivalent_identical_snapshots_witness :
    ∃ res, find_equivalent_symlinks snapPlain snapPlain = .ok res ∧
      res.different_final_content = [] ∧
      res.broken_only_in_state1 = [] ∧
      res.broken_only_in_state2 = [] ∧
      res.identical_final_content.length + res.broken_in_both.length =
        snapPlain.symlinks.length :=
  find_equivalent_identical_snapshots snapPlain (by decide) (by decide)
    (by decide)

end SymComp
